import Mathlib

/-!
Verification of the busoc/pdh packet codec and the ppcat streaming
aggregation tools, as a shallow embedding in Lean 4.

Bytes are modelled as natural numbers (the theorems carry explicit
bounds such as x < 256 where the Go byte type guarantees them), byte
buffers as lists of naturals, and the Go multi-return style
(value, error) as pairs with an Option error component.  The external
timestamp codec (timutil.Join5) is out of scope per the spec; packet
timestamps are modelled as the natural number it returns, with the Go
zero time represented by 0.
-/

namespace Pdh

/-- Error values of the pdh package and of the decode loop.  ErrEmpty and
ErrMissing come from pdh.go; shortBuffer is io.ErrShortBuffer, eof is
io.EOF, invalidCode is the fmt.Errorf produced by WithCodes, and other
stands for an arbitrary error returned by a caller-supplied filter. -/
inductive Err where
  | eof
  | shortBuffer
  | missing
  | empty
  | invalidCode (v : List Nat)
  | other (n : Nat)
deriving DecidableEq, Repr

def UMICodeLen : Nat := 6

def UMIHeaderLen : Nat := 25

/-- UMIHeader from pdh.go.  Field widths in Go: Size uint32, Code [6]byte,
Orbit uint32, State uint8, Type uint8, Len uint16, Unit uint16,
Coarse uint32, Fine uint8. -/
structure UMIHeader where
  size : Nat
  code : List Nat
  orbit : Nat
  state : Nat
  type : Nat
  len : Nat
  unit : Nat
  coarse : Nat
  fine : Nat
deriving DecidableEq, Repr

/-- Packet from pdh.go: an embedded UMIHeader plus payload bytes.  The Go
nil slice is modelled as the empty list. -/
structure Packet where
  header : UMIHeader
  data : List Nat
deriving DecidableEq, Repr

/-- Zero value of UMIHeader, as produced by var h UMIHeader in Go. -/
def zeroHeader : UMIHeader :=
  { size := 0, code := List.replicate 6 0, orbit := 0, state := 0, type := 0,
    len := 0, unit := 0, coarse := 0, fine := 0 }

/-- Zero value of Packet (named return p before any assignment). -/
def defaultPacket : Packet := ⟨zeroHeader, []⟩

/-- decodeHeader from pdh.go.  Size is little-endian uint32 at offset 0,
state byte at 4, orbit big-endian uint32 at 5, 6 code bytes at 9, type
byte at 15, unit big-endian uint16 at 16, coarse big-endian uint32 at 18,
fine byte at 22, len big-endian uint16 at 23. -/
def decodeHeader (b : List Nat) : UMIHeader :=
  { size := b.getD 0 0 + 256 * b.getD 1 0 + 65536 * b.getD 2 0 + 16777216 * b.getD 3 0
    state := b.getD 4 0
    orbit := b.getD 8 0 + 256 * b.getD 7 0 + 65536 * b.getD 6 0 + 16777216 * b.getD 5 0
    code := (b.drop 9).take 6
    type := b.getD 15 0
    unit := b.getD 17 0 + 256 * b.getD 16 0
    coarse := b.getD 21 0 + 256 * b.getD 20 0 + 65536 * b.getD 19 0 + 16777216 * b.getD 18 0
    fine := b.getD 22 0
    len := b.getD 24 0 + 256 * b.getD 23 0 }

/-- decodeHeader with its Go error result: the function unconditionally
returns (h, nil), so the error component is always none. -/
def decodeHeaderE (b : List Nat) : UMIHeader × Option Err :=
  (decodeHeader b, none)

/-- encodeHeader from pdh.go, the wire image of a header as 25 bytes.
Multi-byte fields are split exactly as binary.LittleEndian.PutUint32 and
the big-endian writers do; single-byte fields (state, type, fine) and the
code bytes are written as-is, mirroring the Go byte casts of uint8 values
and the copy of the 6-byte code array. -/
def encodeHeader (u : UMIHeader) : List Nat :=
  [ u.size % 256, u.size / 256 % 256, u.size / 65536 % 256, u.size / 16777216 % 256,
    u.state,
    u.orbit / 16777216 % 256, u.orbit / 65536 % 256, u.orbit / 256 % 256, u.orbit % 256,
    u.code.getD 0 0, u.code.getD 1 0, u.code.getD 2 0,
    u.code.getD 3 0, u.code.getD 4 0, u.code.getD 5 0,
    u.type,
    u.unit / 256 % 256, u.unit % 256,
    u.coarse / 16777216 % 256, u.coarse / 65536 % 256, u.coarse / 256 % 256, u.coarse % 256,
    u.fine,
    u.len / 256 % 256, u.len % 256 ]

/-- decodePacket from pdh.go.  Returns the (possibly partially populated)
named-return packet together with the Go error, mirroring control flow
exactly: the under-25 check, the header decode (which cannot fail), and —
only when data is true — the payload length check, the allocation of a
zeroed Len-byte slice, the copy (which obtains min(Len, len(buffer)-25)
bytes, the rest of the slice staying zero), and the defensive ErrMissing
check on the copy count. -/
def decodePacket (buffer : List Nat) (data : Bool) : Packet × Option Err :=
  if buffer.length < UMIHeaderLen then (defaultPacket, some .shortBuffer)
  else
    match decodeHeaderE buffer with
    | (h, some e) => ({ defaultPacket with header := h }, some e)
    | (h, none) =>
      if data then
        if buffer.length < h.len + UMIHeaderLen then (⟨h, []⟩, some .shortBuffer)
        else
          let copied := (buffer.drop UMIHeaderLen).take h.len
          let stored := copied ++ List.replicate (h.len - copied.length) 0
          if copied.length < h.len then (⟨h, stored⟩, some .missing)
          else (⟨h, stored⟩, none)
      else (⟨h, []⟩, none)

/-- Packet.Marshal from pdh.go.  Fails with ErrEmpty on an empty payload;
otherwise allocates a zeroed buffer of 25+Len bytes, copies the encoded
header, then copies the payload into the remaining Len bytes (the copy
truncates a longer payload and leaves trailing zeros after a shorter
one). -/
def Packet.Marshal (p : Packet) : Except Err (List Nat) :=
  if p.data.length = 0 then .error .empty
  else
    .ok (encodeHeader p.header ++
          (p.data.take p.header.len ++ List.replicate (p.header.len - p.data.length) 0))

/-- WithCodes from pdh.go: the by-code-set identity filter.  Scans the
candidate list in order; a candidate of length other than 6 makes the
predicate fail with the invalid-code format error, a candidate equal to
the header code accepts, and an exhausted list rejects without error. -/
def WithCodes (vs : List (List Nat)) (u : UMIHeader) : Bool × Option Err :=
  match vs with
  | [] => (false, none)
  | v :: rest =>
    if v.length ≠ UMICodeLen then (false, some (.invalidCode v))
    else if v = u.code then (true, none)
    else WithCodes rest u

/-- WithOrigin from pdh.go: keep when the configured origin byte is zero
or equals the first code byte. -/
def WithOrigin (o : Nat) (u : UMIHeader) : Bool × Option Err :=
  (decide (o = 0 ∨ o = u.code.getD 0 0), none)

/-- Decoder.Decode from pdh.go.  The abstract byte source is the list of
record-aligned chunks the transport delivers, one chunk per Read; an
exhausted source makes Read return io.EOF, which is propagated with the
zero packet.  After a successful decodePacket the filter runs; on
keep=false the method recurses on the rest of the source, which — exactly
as in the Go code — discards any error the filter returned alongside the
rejection.  On keep=true the packet and the filter error (possibly nil)
are returned together. -/
def decode (filter : UMIHeader → Bool × Option Err) (data : Bool) :
    List (List Nat) → Packet × Option Err
  | [] => (defaultPacket, some .eof)
  | c :: rest =>
    match decodePacket c data with
    | (p, some e) => (p, some e)
    | (p, none) =>
      let r := filter p.header
      if r.1 = false then decode filter data rest
      else (p, r.2)

/-- Sample 25-byte buffer used by the witnesses: its state byte (offset 4)
is 99 and its type byte (offset 15) is 200, both outside the declared
enumerations, and its big-endian len field (offsets 23-24) is 1. -/
def b25ex : List Nat :=
  [1, 2, 3, 4, 99, 5, 6, 7, 8, 10, 11, 12, 13, 14, 15, 200, 16, 17, 18, 19, 20, 21, 22, 0, 1]

/-- C7: header codec inverse.  For every buffer of at least 25 bytes whose
entries are bytes, re-encoding the decoded header reproduces the first 25
bytes exactly, each field at its wire offset and byte order. -/
theorem encodeHeader_decodeHeader (b : List Nat) (hl : 25 ≤ b.length)
    (hb : ∀ x ∈ b, x < 256) :
    encodeHeader (decodeHeader b) = b.take 25 := by
  rcases b with _ | ⟨a0, b⟩; · simp at hl
  rcases b with _ | ⟨a1, b⟩; · simp at hl
  rcases b with _ | ⟨a2, b⟩; · simp at hl
  rcases b with _ | ⟨a3, b⟩; · simp at hl
  rcases b with _ | ⟨a4, b⟩; · simp at hl
  rcases b with _ | ⟨a5, b⟩; · simp at hl
  rcases b with _ | ⟨a6, b⟩; · simp at hl
  rcases b with _ | ⟨a7, b⟩; · simp at hl
  rcases b with _ | ⟨a8, b⟩; · simp at hl
  rcases b with _ | ⟨a9, b⟩; · simp at hl
  rcases b with _ | ⟨a10, b⟩; · simp at hl
  rcases b with _ | ⟨a11, b⟩; · simp at hl
  rcases b with _ | ⟨a12, b⟩; · simp at hl
  rcases b with _ | ⟨a13, b⟩; · simp at hl
  rcases b with _ | ⟨a14, b⟩; · simp at hl
  rcases b with _ | ⟨a15, b⟩; · simp at hl
  rcases b with _ | ⟨a16, b⟩; · simp at hl
  rcases b with _ | ⟨a17, b⟩; · simp at hl
  rcases b with _ | ⟨a18, b⟩; · simp at hl
  rcases b with _ | ⟨a19, b⟩; · simp at hl
  rcases b with _ | ⟨a20, b⟩; · simp at hl
  rcases b with _ | ⟨a21, b⟩; · simp at hl
  rcases b with _ | ⟨a22, b⟩; · simp at hl
  rcases b with _ | ⟨a23, b⟩; · simp at hl
  rcases b with _ | ⟨a24, b⟩; · simp at hl
  have h0 : a0 < 256 := hb a0 (by simp)
  have h1 : a1 < 256 := hb a1 (by simp)
  have h2 : a2 < 256 := hb a2 (by simp)
  have h3 : a3 < 256 := hb a3 (by simp)
  have h5 : a5 < 256 := hb a5 (by simp)
  have h6 : a6 < 256 := hb a6 (by simp)
  have h7 : a7 < 256 := hb a7 (by simp)
  have h8 : a8 < 256 := hb a8 (by simp)
  have h16 : a16 < 256 := hb a16 (by simp)
  have h17 : a17 < 256 := hb a17 (by simp)
  have h18 : a18 < 256 := hb a18 (by simp)
  have h19 : a19 < 256 := hb a19 (by simp)
  have h20 : a20 < 256 := hb a20 (by simp)
  have h21 : a21 < 256 := hb a21 (by simp)
  have h23 : a23 < 256 := hb a23 (by simp)
  have h24 : a24 < 256 := hb a24 (by simp)
  show [ (a0 + 256 * a1 + 65536 * a2 + 16777216 * a3) % 256,
         (a0 + 256 * a1 + 65536 * a2 + 16777216 * a3) / 256 % 256,
         (a0 + 256 * a1 + 65536 * a2 + 16777216 * a3) / 65536 % 256,
         (a0 + 256 * a1 + 65536 * a2 + 16777216 * a3) / 16777216 % 256,
         a4,
         (a8 + 256 * a7 + 65536 * a6 + 16777216 * a5) / 16777216 % 256,
         (a8 + 256 * a7 + 65536 * a6 + 16777216 * a5) / 65536 % 256,
         (a8 + 256 * a7 + 65536 * a6 + 16777216 * a5) / 256 % 256,
         (a8 + 256 * a7 + 65536 * a6 + 16777216 * a5) % 256,
         a9, a10, a11, a12, a13, a14,
         a15,
         (a17 + 256 * a16) / 256 % 256, (a17 + 256 * a16) % 256,
         (a21 + 256 * a20 + 65536 * a19 + 16777216 * a18) / 16777216 % 256,
         (a21 + 256 * a20 + 65536 * a19 + 16777216 * a18) / 65536 % 256,
         (a21 + 256 * a20 + 65536 * a19 + 16777216 * a18) / 256 % 256,
         (a21 + 256 * a20 + 65536 * a19 + 16777216 * a18) % 256,
         a22,
         (a24 + 256 * a23) / 256 % 256, (a24 + 256 * a23) % 256 ] =
       [ a0, a1, a2, a3, a4, a5, a6, a7, a8, a9, a10, a11, a12,
         a13, a14, a15, a16, a17, a18, a19, a20, a21, a22, a23, a24 ]
  simp only [List.cons.injEq, eq_self_iff_true, and_true, true_and]
  omega

/-- C7 witness: the codec inverse applied to the concrete buffer b25ex. -/
theorem encodeHeader_decodeHeader_witness :
    25 ≤ b25ex.length ∧ (∀ x ∈ b25ex, x < 256) ∧
      encodeHeader (decodeHeader b25ex) = b25ex.take 25 :=
  ⟨by decide, by decide, encodeHeader_decodeHeader b25ex (by decide) (by decide)⟩

/-- C10: decodeHeader is total and validation-free.  On every buffer of at
least 25 bytes it returns a nil error, and the state and type bytes are
stored as-is, with no validation against the enum ranges 0-4 and 1-14. -/
theorem decodeHeader_total (b : List Nat) (_hl : 25 ≤ b.length) :
    (decodeHeaderE b).2 = none ∧
      (decodeHeaderE b).1.state = b.getD 4 0 ∧
      (decodeHeaderE b).1.type = b.getD 15 0 :=
  ⟨rfl, rfl, rfl⟩

/-- C10 witness: decoding b25ex succeeds with no error although its state
byte 99 lies outside the state enumeration 0-4 and its type byte 200 lies
outside the value-type enumeration 1-14. -/
theorem decodeHeader_total_witness :
    25 ≤ b25ex.length ∧ (decodeHeaderE b25ex).2 = none ∧
      (decodeHeaderE b25ex).1.state = 99 ∧ 4 < 99 ∧
      (decodeHeaderE b25ex).1.type = 200 ∧ 14 < 200 :=
  ⟨by decide, (decodeHeader_total b25ex (by decide)).1, by decide, by decide,
    by decide, by decide⟩

theorem length_encodeHeader (u : UMIHeader) : (encodeHeader u).length = 25 := rfl

/-- Unfolding of decodePacket for buffers of at least 25 bytes: the header
decode never fails, so control reaches the payload stage directly. -/
theorem decodePacket_ge (buffer : List Nat) (data : Bool)
    (hl : ¬ buffer.length < UMIHeaderLen) :
    decodePacket buffer data =
      (let h := decodeHeader buffer
       if data then
         if buffer.length < h.len + UMIHeaderLen then (⟨h, []⟩, some .shortBuffer)
         else
           let copied := (buffer.drop UMIHeaderLen).take h.len
           let stored := copied ++ List.replicate (h.len - copied.length) 0
           if copied.length < h.len then (⟨h, stored⟩, some .missing)
           else (⟨h, stored⟩, none)
       else (⟨h, []⟩, none)) := by
  unfold decodePacket
  rw [if_neg hl]
  rfl

/-- C4 (amended): Marshal fails with ErrEmpty exactly on an empty payload;
on success the buffer has exactly 25 + header.len bytes — the encoded
header followed by the payload truncated or zero-padded to header.len
bytes — which equals 25 + len(payload) bytes of header plus raw payload
exactly when header.len = len(payload). -/
theorem marshal_spec (p : Packet) :
    (p.Marshal = .error .empty ↔ p.data = []) ∧
    (∀ buf, p.Marshal = Except.ok buf →
      buf.length = 25 + p.header.len ∧
      buf.take 25 = encodeHeader p.header ∧
      buf.drop 25 = p.data.take p.header.len ++
        List.replicate (p.header.len - p.data.length) 0 ∧
      (p.header.len = p.data.length → buf = encodeHeader p.header ++ p.data)) := by
  by_cases hd : p.data.length = 0
  · constructor
    · rw [Packet.Marshal, if_pos hd]
      simp [List.length_eq_zero.mp hd]
    · intro buf hbuf
      rw [Packet.Marshal, if_pos hd] at hbuf
      exact absurd hbuf (by simp)
  · constructor
    · rw [Packet.Marshal, if_neg hd]
      constructor
      · intro h; exact absurd h (by simp)
      · intro h; exact absurd (congrArg List.length h) (by simpa using hd)
    · intro buf hbuf
      rw [Packet.Marshal, if_neg hd] at hbuf
      injection hbuf with hbuf2
      subst hbuf2
      refine ⟨?_, ?_, ?_, ?_⟩
      · simp [List.length_append, length_encodeHeader, List.length_take,
          List.length_replicate]
        omega
      · have h := List.take_left (encodeHeader p.header)
          (p.data.take p.header.len ++ List.replicate (p.header.len - p.data.length) 0)
        rwa [length_encodeHeader] at h
      · have h := List.drop_left (encodeHeader p.header)
          (p.data.take p.header.len ++ List.replicate (p.header.len - p.data.length) 0)
        rwa [length_encodeHeader] at h
      · intro hl
        rw [hl, List.take_length _, Nat.sub_self, List.replicate_zero, List.append_nil]

/-- C4 witness: Marshal on a packet whose header.len (3) equals its
payload length, exercising the success conjuncts of marshal_spec. -/
theorem marshal_spec_witness :
    Pdh.Packet.Marshal ⟨{ zeroHeader with len := 3 }, [9, 9, 9]⟩ =
        Except.ok (encodeHeader { zeroHeader with len := 3 } ++ [9, 9, 9]) ∧
      (encodeHeader { zeroHeader with len := 3 } ++ [9, 9, 9]).length =
        25 + (3 : Nat) := by
  have h := (marshal_spec ⟨{ zeroHeader with len := 3 }, [9, 9, 9]⟩).2
  have hm : Pdh.Packet.Marshal ⟨{ zeroHeader with len := 3 }, [9, 9, 9]⟩ =
      Except.ok (encodeHeader { zeroHeader with len := 3 } ++ [9, 9, 9]) := rfl
  exact ⟨hm, ((h _ hm).1 : _)⟩

/-- Packet with an empty declared payload length but a 1-byte payload:
Marshal sizes its buffer by header.len, not by the payload. -/
def exPacketLen0 : Packet := ⟨zeroHeader, [7]⟩

/-- C4 counterexample: exPacketLen0 has a non-empty payload, yet Marshal
returns a 25-byte buffer, not 25 + len(payload) = 26 bytes, and the
payload byte 7 appears nowhere in it. -/
theorem marshal_len_cex :
    exPacketLen0.data ≠ [] ∧
      Pdh.Packet.Marshal exPacketLen0 = Except.ok (List.replicate 25 0) ∧
      (List.replicate 25 0).length ≠ 25 + exPacketLen0.data.length := by
  refine ⟨by decide, rfl, by decide⟩

/-- Decoding an encoded header recovers it exactly, for headers whose
fields lie in the ranges the Go types impose (uint32/uint16 fields in
range, a 6-byte code); the trailing payload bytes do not disturb the
header fields. -/
theorem decodeHeader_encodeHeader (u : UMIHeader) (d : List Nat)
    (hcode : u.code.length = 6) (hsize : u.size < 4294967296)
    (horbit : u.orbit < 4294967296) (hunit : u.unit < 65536)
    (hcoarse : u.coarse < 4294967296) (hl16 : u.len < 65536) :
    decodeHeader (encodeHeader u ++ d) = u := by
  obtain ⟨s, code, orb, st, ty, ln, un, co, fi⟩ := u
  simp only at hcode hsize horbit hunit hcoarse hl16
  rcases code with _ | ⟨c0, code⟩; · simp at hcode
  rcases code with _ | ⟨c1, code⟩; · simp at hcode
  rcases code with _ | ⟨c2, code⟩; · simp at hcode
  rcases code with _ | ⟨c3, code⟩; · simp at hcode
  rcases code with _ | ⟨c4, code⟩; · simp at hcode
  rcases code with _ | ⟨c5, code⟩; · simp at hcode
  have hnil : code = [] := by
    have : code.length = 0 := by simpa using hcode
    exact List.length_eq_zero.mp this
  subst hnil
  have hred : decodeHeader
      (encodeHeader (UMIHeader.mk s [c0, c1, c2, c3, c4, c5] orb st ty ln un co fi) ++ d) =
      UMIHeader.mk
        (s % 256 + 256 * (s / 256 % 256) + 65536 * (s / 65536 % 256) +
          16777216 * (s / 16777216 % 256))
        [c0, c1, c2, c3, c4, c5]
        (orb % 256 + 256 * (orb / 256 % 256) + 65536 * (orb / 65536 % 256) +
          16777216 * (orb / 16777216 % 256))
        st ty
        (ln % 256 + 256 * (ln / 256 % 256))
        (un % 256 + 256 * (un / 256 % 256))
        (co % 256 + 256 * (co / 256 % 256) + 65536 * (co / 65536 % 256) +
          16777216 * (co / 16777216 % 256))
        fi := rfl
  rw [hred]
  simp only [UMIHeader.mk.injEq, eq_self_iff_true, and_true, true_and]
  omega

/-- C1 (amended): round-trip for well-formed packets.  For every packet
with a non-empty payload whose header.len equals the payload length (and
whose fields lie in the ranges the Go types impose), Marshal produces the
encoded header followed by the raw payload, and decodePacket of that
buffer with payload capture returns exactly the original packet,
field-for-field, with no error. -/
theorem marshal_decodePacket_roundtrip (p : Packet)
    (hne : p.data ≠ [])
    (hlen : p.header.len = p.data.length)
    (hcode : p.header.code.length = 6)
    (hsize : p.header.size < 4294967296) (horbit : p.header.orbit < 4294967296)
    (hunit : p.header.unit < 65536) (hcoarse : p.header.coarse < 4294967296)
    (hl16 : p.header.len < 65536) :
    p.Marshal = Except.ok (encodeHeader p.header ++ p.data) ∧
      decodePacket (encodeHeader p.header ++ p.data) true = (p, none) := by
  have hB : (encodeHeader p.header ++ p.data).length = 25 + p.data.length := by
    rw [List.length_append, length_encodeHeader]
  have hdrop : (encodeHeader p.header ++ p.data).drop 25 = p.data := by
    have h := List.drop_left (encodeHeader p.header) p.data
    rwa [length_encodeHeader] at h
  constructor
  · rw [Packet.Marshal, if_neg (by simpa using hne)]
    rw [hlen, List.take_length _, Nat.sub_self, List.replicate_zero, List.append_nil]
  · rw [decodePacket_ge _ _ (by rw [hB]; unfold UMIHeaderLen; omega)]
    simp only [decodeHeader_encodeHeader p.header p.data hcode hsize horbit hunit hcoarse hl16,
      if_true, UMIHeaderLen]
    rw [if_neg (by rw [hB, hlen]; omega)]
    rw [hdrop, hlen, List.take_length _]
    rw [if_neg (by omega)]
    rw [Nat.sub_self, List.replicate_zero, List.append_nil]

/-- C1 witness: the round-trip applied to a concrete well-formed packet. -/
theorem marshal_decodePacket_roundtrip_witness :
    Pdh.Packet.Marshal
        ⟨{ size := 30, code := [1, 2, 3, 4, 5, 6], orbit := 7, state := 2, type := 1,
           len := 2, unit := 9, coarse := 1000, fine := 8 }, [77, 88]⟩ =
      Except.ok
        (encodeHeader
            { size := 30, code := [1, 2, 3, 4, 5, 6], orbit := 7, state := 2, type := 1,
              len := 2, unit := 9, coarse := 1000, fine := 8 } ++ [77, 88]) ∧
      decodePacket
          (encodeHeader
              { size := 30, code := [1, 2, 3, 4, 5, 6], orbit := 7, state := 2, type := 1,
                len := 2, unit := 9, coarse := 1000, fine := 8 } ++ [77, 88]) true =
        (⟨{ size := 30, code := [1, 2, 3, 4, 5, 6], orbit := 7, state := 2, type := 1,
            len := 2, unit := 9, coarse := 1000, fine := 8 }, [77, 88]⟩, none) :=
  marshal_decodePacket_roundtrip _ (by decide) (by decide) (by decide) (by decide)
    (by decide) (by decide) (by decide) (by decide)

/-- C1 counterexample: the round-trip fails for a packet with a non-empty
payload whose header.len (0) disagrees with its payload length (1) — the
decoded packet has an empty payload, so decode of encode is not the
identity on all packets with non-empty payload. -/
theorem marshal_roundtrip_cex :
    exPacketLen0.data = [7] ∧
      Pdh.Packet.Marshal exPacketLen0 = Except.ok (List.replicate 25 0) ∧
      (decodePacket (List.replicate 25 0) true).1.data = [] ∧
      (decodePacket (List.replicate 25 0) true).2 = none := by
  refine ⟨rfl, rfl, by decide, by decide⟩

/-- C5 (amended): decodePacket error conditions.  A buffer under 25 bytes
always fails with ErrShortBuffer, returning the zero packet (no partially
populated header).  For a buffer of at least 25 bytes, the payload length
check applies only when payload capture is requested: with capture the
call fails with ErrShortBuffer exactly when len(buffer) < 25 + header.len,
while without capture it succeeds regardless of header.len.  The
defensive ErrMissing check is present in the code but can never fire,
since the prior length check guarantees the copy obtains header.len
bytes. -/
theorem decodePacket_spec (buffer : List Nat) :
    (buffer.length < 25 →
      decodePacket buffer true = (defaultPacket, some .shortBuffer) ∧
      decodePacket buffer false = (defaultPacket, some .shortBuffer)) ∧
    (25 ≤ buffer.length →
      ((decodePacket buffer true).2 = some .shortBuffer ↔
        buffer.length < 25 + (decodeHeader buffer).len) ∧
      (decodePacket buffer false).2 = none) ∧
    (decodePacket buffer true).2 ≠ some .missing := by
  have hcop : ¬ buffer.length < 25 → ¬ buffer.length < (decodeHeader buffer).len + 25 →
      ¬ ((buffer.drop 25).take (decodeHeader buffer).len).length < (decodeHeader buffer).len := by
    intro h1 h2
    rw [List.length_take, List.length_drop]
    omega
  refine ⟨?_, ?_, ?_⟩
  · intro h
    constructor <;> (rw [decodePacket, if_pos (show buffer.length < UMIHeaderLen from h)])
  · intro h
    have h25 : ¬ buffer.length < UMIHeaderLen := by unfold UMIHeaderLen; omega
    rw [decodePacket_ge _ _ h25, decodePacket_ge _ _ h25]
    simp only [UMIHeaderLen]
    constructor
    · by_cases hc : buffer.length < (decodeHeader buffer).len + 25
      · rw [if_pos hc]
        exact iff_of_true rfl (by omega)
      · rw [if_neg hc, if_neg (hcop (by omega) hc)]
        exact iff_of_false (by simp) (by omega)
    · rfl
  · by_cases h25 : buffer.length < UMIHeaderLen
    · rw [decodePacket, if_pos h25]; simp
    · rw [decodePacket_ge _ _ h25]
      simp only [UMIHeaderLen]
      by_cases hc : buffer.length < (decodeHeader buffer).len + 25
      · rw [if_pos hc]; simp
      · have h25n : ¬ buffer.length < 25 := by unfold UMIHeaderLen at h25; omega
        rw [if_neg hc, if_neg (hcop h25n hc)]; simp

/-- C5 witness: the 10-byte malformed-buffer scenario fails with
ShortBuffer and no header fields populated, and the 25-byte buffer b25ex,
whose header declares a 1-byte payload, fails with ShortBuffer when
payload capture is requested. -/
theorem decodePacket_spec_witness :
    decodePacket (List.replicate 10 0) true = (defaultPacket, some .shortBuffer) ∧
      (decodePacket b25ex true).2 = some .shortBuffer := by
  constructor
  · exact ((decodePacket_spec (List.replicate 10 0)).1 (by decide)).1
  · exact ((decodePacket_spec b25ex).2.1 (by decide)).1.mpr (by decide)

/-- C5 counterexample: b25ex is a 25-byte buffer whose header declares a
1-byte payload, so len(buffer) < 25 + header.len; yet decodePacket
without payload capture succeeds, so the claim "for every call" fails
for capturePayload = false. -/
theorem decodePacket_shortcheck_cex :
    25 ≤ b25ex.length ∧ b25ex.length < 25 + (decodeHeader b25ex).len ∧
      (decodePacket b25ex false).2 = none := by decide

/-- Header whose code is the 6 bytes 1..6, used by the filter theorems. -/
def exHeader6 : UMIHeader := { zeroHeader with code := [1, 2, 3, 4, 5, 6] }

/-- C9 (amended): the by-code-set filter scans its candidate list in
order.  When every candidate is exactly 6 bytes it keeps a header exactly
when the header code equals some candidate, with no error; and whenever a
wrong-length candidate is reached before any matching candidate, the
predicate fails with the invalid-code format error naming that
candidate. -/
theorem withCodes_spec (vs : List (List Nat)) (u : UMIHeader) :
    ((∀ v ∈ vs, v.length = 6) →
      WithCodes vs u = (if u.code ∈ vs then (true, none) else (false, none))) ∧
    (∀ l1 v l2, vs = l1 ++ v :: l2 → v.length ≠ 6 →
      (∀ w ∈ l1, w.length = 6 ∧ w ≠ u.code) →
      WithCodes vs u = (false, some (.invalidCode v))) := by
  induction vs with
  | nil =>
    constructor
    · intro
      rw [if_neg (by simp)]
      rfl
    · intro l1 v l2 heq
      exact absurd heq (by cases l1 <;> simp)
  | cons a rest ih =>
    constructor
    · intro hall
      have ha : a.length = 6 := hall a (by simp)
      rw [WithCodes, if_neg (by simpa [UMICodeLen] using congrArg id ha)]
      by_cases hm : a = u.code
      · rw [if_pos hm, if_pos (by simp [hm.symm])]
      · rw [if_neg hm, ih.1 (fun v hv => hall v (by simp [hv]))]
        by_cases hmem : u.code ∈ rest
        · rw [if_pos hmem, if_pos (by simp [hmem])]
        · rw [if_neg hmem, if_neg (by simp [hmem]; exact fun hx => hm hx.symm)]
    · intro l1 v l2 heq hv hpre
      cases l1 with
      | nil =>
        simp only [List.nil_append, List.cons.injEq] at heq
        obtain ⟨rfl, rfl⟩ := heq
        rw [WithCodes, if_pos (by simpa [UMICodeLen] using hv)]
      | cons w l1 =>
        simp only [List.cons_append, List.cons.injEq] at heq
        obtain ⟨rfl, rfl⟩ := heq
        obtain ⟨hw6, hwne⟩ := hpre a (by simp)
        rw [WithCodes, if_neg (by simpa [UMICodeLen] using congrArg id hw6), if_neg hwne]
        exact ih.2 l1 v l2 rfl hv (fun x hx => hpre x (by simp [hx]))

/-- C9 witness: a set of a single valid matching code keeps the header,
and a set whose first candidate has the wrong length fails with the
invalid-code error naming it. -/
theorem withCodes_spec_witness :
    WithCodes [[1, 2, 3, 4, 5, 6]] exHeader6 = (true, none) ∧
      WithCodes [[9]] exHeader6 = (false, some (.invalidCode [9])) := by
  constructor
  · have h := (withCodes_spec [[1, 2, 3, 4, 5, 6]] exHeader6).1 (by decide)
    rw [h, if_pos (by decide)]
  · exact (withCodes_spec [[9]] exHeader6).2 [] [9] [] rfl (by decide) (by simp)

/-- C9 counterexample: the candidate set contains the 1-byte code 9, which
is not 6 bytes long, yet the predicate reports keep with no error because
an earlier candidate matches — the claim that any wrong-length member
makes the predicate fail is false as stated. -/
theorem withCodes_cex :
    ([9] : List Nat) ∈ [[1, 2, 3, 4, 5, 6], [9]] ∧ ([9] : List Nat).length ≠ 6 ∧
      WithCodes [[1, 2, 3, 4, 5, 6], [9]] exHeader6 = (true, none) := by decide

/-- Filter that rejects every packet while also reporting an evaluation
error, the case in which the Go code loses the error. -/
def rejectWithError : UMIHeader → Bool × Option Err := fun _ => (false, some (.other 7))

/-- C6: a filter evaluation error returned together with keep=false is
silently discarded by Decoder.Decode, which keeps decoding: on a
one-chunk source the call returns io.EOF from the next read instead of
the filter error.  By contrast, the same error with keep=true is
propagated.  This contradicts the specified behavior that a filter error
aborts decoding immediately, in particular that the error is not lost
when the filter simultaneously rejects the packet. -/
theorem decode_swallows_filter_error :
    decode rejectWithError false [List.replicate 25 0] = (defaultPacket, some .eof) ∧
      (decode (fun _ => (true, some (.other 7))) false [List.replicate 25 0]).2 =
        some (.other 7) := by
  constructor <;> rfl

end Pdh

namespace Ppcat

/-- Packet view used by the ppcat commands (cmd/ppcat/main.go): the 6-byte
identity code p.Code, the timestamp the external codec returns for
p.Timestamp(), and the declared payload length p.Len.  These are the only
packet components runDiff and countPackets consult.  The Go zero
time.Time is modelled as timestamp 0. -/
structure PPkt where
  code : List Nat
  ts : Nat
  len : Nat
deriving DecidableEq, Repr

/-- Lookup in an association list, modelling a Go map read. -/
def mget {α β : Type} [DecidableEq α] : List (α × β) → α → Option β
  | [], _ => none
  | e :: m, k => if e.1 = k then some e.2 else mget m k

/-- Insert or replace in an association list, modelling a Go map write. -/
def mset {α β : Type} [DecidableEq α] : List (α × β) → α → β → List (α × β)
  | [], k, v => [(k, v)]
  | e :: m, k, v => if e.1 = k then (k, v) :: m else e :: mset m k v

/-- Removal from an association list, modelling the Go delete builtin. -/
def mdel {α β : Type} [DecidableEq α] : List (α × β) → α → List (α × β)
  | [], _ => []
  | e :: m, k => if e.1 = k then mdel m k else e :: mdel m k

theorem mget_mset {α β : Type} [DecidableEq α] (m : List (α × β)) (k : α) (v : β)
    (k' : α) : mget (mset m k v) k' = if k = k' then some v else mget m k' := by
  induction m with
  | nil => simp [mset, mget]
  | cons e m ih =>
    by_cases he : e.1 = k
    · simp only [mset, if_pos he, mget]
      by_cases hk : k = k' <;> simp [mget, he, hk]
    · simp only [mset, if_neg he, mget, ih]
      by_cases he2 : e.1 = k'
      · have hne : k ≠ k' := fun hx => he (he2.trans hx.symm)
        simp [he2, hne]
      · simp [he2]

/-- An emitted gap record of the diff command: identity code, the two
timestamps, and their difference. -/
structure Gap where
  code : List Nat
  tsFrom : Nat
  tsTo : Nat
  delta : Int
deriving DecidableEq, Repr

/-- State of the runDiff loop: the stats map of last-seen packets per
code, plus the list of gap records emitted so far (in output order). -/
structure DState where
  stats : List (List Nat × PPkt)
  emitted : List Gap
deriving DecidableEq, Repr

/-- One iteration of the runDiff loop body (cmd/ppcat/main.go): when a
previous packet with the same code exists, compute delta and emit the
pair when the configured minimum duration is non-positive or delta
reaches it; in all cases overwrite the stats entry with the new
packet. -/
def diffStep (dur : Int) (s : DState) (p : PPkt) : DState :=
  let s1 :=
    match mget s.stats p.code with
    | some other =>
      let delta : Int := (p.ts : Int) - (other.ts : Int)
      if dur ≤ 0 ∨ delta ≥ dur then
        { s with emitted := s.emitted ++ [Gap.mk p.code other.ts p.ts delta] }
      else s
    | none => s
  { s1 with stats := mset s1.stats p.code p }

/-- The runDiff loop over a whole packet stream. -/
def runDiff (dur : Int) (l : List PPkt) : DState :=
  l.foldl (diffStep dur) ⟨[], []⟩

/-- Last packet of a given code in a stream, the specification of what
the stats map holds. -/
def lastSameCode (l : List PPkt) (c : List Nat) : Option PPkt :=
  (l.filter (fun p => decide (p.code = c))).getLast?

theorem diffStep_stats (dur : Int) (s : DState) (p : PPkt) :
    (diffStep dur s p).stats = mset s.stats p.code p := by
  unfold diffStep
  cases mget s.stats p.code with
  | none => rfl
  | some q =>
    dsimp only
    split <;> rfl

theorem runDiff_append (dur : Int) (l : List PPkt) (p : PPkt) :
    runDiff dur (l ++ [p]) = diffStep dur (runDiff dur l) p := by
  rw [runDiff, runDiff, List.foldl_append]
  rfl

/-- The stats map of runDiff holds exactly the last packet seen for each
code. -/
theorem runDiff_stats (dur : Int) (l : List PPkt) (c : List Nat) :
    mget (runDiff dur l).stats c = lastSameCode l c := by
  induction l using List.reverseRecOn with
  | nil => rfl
  | append_singleton l p ih =>
    rw [runDiff_append, diffStep_stats, mget_mset]
    unfold lastSameCode
    rw [List.filter_append]
    by_cases hc : p.code = c
    · rw [if_pos hc]
      simp [hc, List.getLast?_concat]
    · rw [if_neg hc]
      simp only [List.filter_cons, List.filter_nil, decide_eq_true_eq, hc, if_false]
      rw [List.append_nil]
      exact ih

/-- C8: gap threshold boundary.  For any stream and any packet p whose
code has a previous packet q (the last same-code packet of the stream so
far), the step for p emits the pair (code, q.ts, p.ts, delta) if and only
if the configured minimum duration is non-positive or delta is at least
that duration — an inclusive lower bound, so delta equal to the duration
is emitted and anything smaller is not — and the stats entry for the code
is overwritten with p regardless of emission. -/
theorem runDiff_gap (dur : Int) (l : List PPkt) (p q : PPkt)
    (h : lastSameCode l p.code = some q) :
    (runDiff dur (l ++ [p])).emitted =
      (runDiff dur l).emitted ++
        (if dur ≤ 0 ∨ (p.ts : Int) - (q.ts : Int) ≥ dur
         then [⟨p.code, q.ts, p.ts, (p.ts : Int) - (q.ts : Int)⟩] else []) ∧
      mget (runDiff dur (l ++ [p])).stats p.code = some p := by
  constructor
  · rw [runDiff_append]
    unfold diffStep
    rw [runDiff_stats, h]
    dsimp only
    by_cases hcond : dur ≤ 0 ∨ (p.ts : Int) - (q.ts : Int) ≥ dur
    · rw [if_pos hcond, if_pos hcond]
    · rw [if_neg hcond, if_neg hcond, List.append_nil]
  · rw [runDiff_append, diffStep_stats, mget_mset, if_pos rfl]

/-- Two gap-detector packets 10 time units apart. -/
def gp1 : PPkt := ⟨[1, 2, 3, 4, 5, 6], 100, 0⟩

/-- Second packet of the boundary example. -/
def gp2 : PPkt := ⟨[1, 2, 3, 4, 5, 6], 110, 0⟩

/-- C8 witness: with minimum duration 10 and delta exactly 10, the pair
is emitted (inclusive boundary), and the stats entry is overwritten. -/
theorem runDiff_gap_witness :
    lastSameCode [gp1] gp2.code = some gp1 ∧
      (runDiff 10 ([gp1] ++ [gp2])).emitted = [⟨gp2.code, 100, 110, 10⟩] ∧
      mget (runDiff 10 ([gp1] ++ [gp2])).stats gp2.code = some gp2 := by
  have h := runDiff_gap 10 [gp1] gp2 gp1 (by decide)
  refine ⟨by decide, ?_, h.2⟩
  rw [h.1]
  decide

/-- Key of the ppcat count maps (type key in cmd/ppcat/main.go): origin
byte, 6-byte code, and a window start time.  The Go zero time.Time is
modelled as 0. -/
structure CKey where
  origin : Nat
  code : List Nat
  time : Nat
deriving DecidableEq, Repr

/-- Aggregate bucket (rt.Coze as used by ppcat): packet count, total
size, and start/end timestamps.  Count and Size are Go uint64 and wrap
modulo 2^64. -/
structure Coze where
  count : Nat
  size : Nat
  startTime : Nat
  endTime : Nat
deriving DecidableEq, Repr

def U64 : Nat := 18446744073709551616

/-- Zero value of rt.Coze. -/
def Coze.zero : Coze := ⟨0, 0, 0, 0⟩

/-- byKey from cmd/ppcat/main.go: origin is the first code byte, and the
window start is the timestamp truncated to the interval d when d > 0
(Go time.Time.Truncate rounds down to a multiple of d). -/
def byKey (p : PPkt) (d : Nat) : CKey :=
  { origin := p.code.getD 0 0, code := p.code,
    time := if 0 < d then p.ts / d * d else 0 }

/-- Accumulation of one packet into a bucket: the statements Count++,
Size += Len, EndTime = timestamp, and StartTime = EndTime when StartTime
is still the zero time, from the countPackets loop body. -/
def acc1 (cz : Coze) (p : PPkt) : Coze :=
  { count := (cz.count + 1) % U64, size := (cz.size + p.len) % U64,
    endTime := p.ts,
    startTime := if cz.startTime = 0 then p.ts else cz.startTime }

/-- State of the countPackets goroutine: the stats map of open buckets,
the keys map of the last window start per identity, and the buckets
emitted so far on the channel, in order. -/
structure CState where
  stats : List (CKey × Coze)
  keys : List (CKey × Nat)
  emitted : List (CKey × Coze)
deriving DecidableEq, Repr

/-- One iteration of the countPackets loop (cmd/ppcat/main.go): fetch the
bucket for the packet's key (zero bucket when absent); when absent, look
up the identity's previous window start and, when that is non-zero, emit
that window's bucket, delete it from stats, and record the new window
start in keys; finally fold the packet into its bucket. -/
def countStep (d : Nat) (s : CState) (p : PPkt) : CState :=
  let k := byKey p d
  let cz := (mget s.stats k).getD Coze.zero
  let idk := byKey p 0
  let s1 :=
    if (mget s.stats k).isSome then s
    else
      let prevW := (mget s.keys idk).getD 0
      let s2 :=
        if prevW ≠ 0 then
          let tmp : CKey := { idk with time := prevW }
          { s with
            emitted := s.emitted ++ [(tmp, (mget s.stats tmp).getD Coze.zero)],
            stats := mdel s.stats tmp }
        else s
      { s2 with keys := mset s2.keys idk k.time }
  { s1 with stats := mset s1.stats k (acc1 cz p) }

/-- The countPackets loop over a whole stream, before the final flush. -/
def countRun (d : Nat) (l : List PPkt) : CState :=
  l.foldl (countStep d) ⟨[], [], []⟩

/-- Everything countPackets sends on its channel: the eagerly flushed
buckets in emission order, then the final flush of every remaining open
bucket.  Go map iteration order is unspecified, so the model flushes the
stats association list in insertion order; the theorems below do not
depend on that order. -/
def countPackets (d : Nat) (l : List PPkt) : List (CKey × Coze) :=
  (countRun d l).emitted ++ (countRun d l).stats

/-- Window start of a packet under interval d. -/
def win (d : Nat) (p : PPkt) : Nat := (byKey p d).time

/-- Packets of a stream belonging to a given (identity, window) key. -/
def pktsOf (d : Nat) (l : List PPkt) (k : CKey) : List PPkt :=
  l.filter (fun p => decide (byKey p d = k))

/-- Identity key of a code: the key with the zero window start under
which the keys map stores the last window of the identity. -/
def idKeyOf (c : List Nat) : CKey := ⟨c.getD 0 0, c, 0⟩

/-- Packets of a stream with a given identity code. -/
def idPkts (l : List PPkt) (c : List Nat) : List PPkt :=
  l.filter (fun p => decide (p.code = c))

/-- Window start of the identity's most recent packet, zero when the
identity has not been seen. -/
def lastWinOf (d : Nat) (l : List PPkt) (c : List Nat) : Nat :=
  ((idPkts l c).getLast?.map (win d)).getD 0

/-- A key is closed in a stream when its window start is non-zero and a
packet of the same identity with a strictly newer window occurs in the
stream. -/
def closedK (d : Nat) (l : List PPkt) (k : CKey) : Prop :=
  k.time ≠ 0 ∧ ∃ p ∈ l, p.code = k.code ∧ k.time < win d p

/-- Bucket obtained by folding a packet list into the zero bucket. -/
def accum (ps : List PPkt) : Coze := ps.foldl acc1 Coze.zero

/-- The stream is in nondecreasing timestamp order. -/
def tsSorted (l : List PPkt) : Prop := l.Pairwise (fun a b => a.ts ≤ b.ts)

theorem mget_mdel {α β : Type} [DecidableEq α] (m : List (α × β)) (k k' : α) :
    mget (mdel m k) k' = if k' = k then none else mget m k' := by
  induction m with
  | nil => simp [mdel, mget]
  | cons e m ih =>
    by_cases he : e.1 = k
    · simp only [mdel, if_pos he, ih]
      by_cases hk : k' = k
      · simp [hk]
      · have h2 : k ≠ k' := fun h => hk h.symm
        simp [mget, he, hk, h2]
    · simp only [mdel, if_neg he, mget, ih]
      by_cases hk : k' = k
      · have h2 : e.1 ≠ k' := fun h => he (h.trans hk)
        simp [hk, h2, he]
      · simp [hk]

theorem mem_mdel {α β : Type} [DecidableEq α] (m : List (α × β)) (k : α) (e : α × β) :
    e ∈ mdel m k ↔ e ∈ m ∧ e.1 ≠ k := by
  induction m with
  | nil => simp [mdel]
  | cons f m ih =>
    by_cases hf : f.1 = k
    · rw [mdel, if_pos hf, ih]
      constructor
      · rintro ⟨h1, h2⟩; exact ⟨List.mem_cons_of_mem f h1, h2⟩
      · rintro ⟨h1, h2⟩
        rcases List.mem_cons.mp h1 with rfl | h1
        · exact absurd hf h2
        · exact ⟨h1, h2⟩
    · rw [mdel, if_neg hf]
      constructor
      · intro h1
        rcases List.mem_cons.mp h1 with rfl | h1
        · exact ⟨List.mem_cons_self _ _, hf⟩
        · obtain ⟨h2, h3⟩ := ih.mp h1
          exact ⟨List.mem_cons_of_mem f h2, h3⟩
      · rintro ⟨h1, h2⟩
        rcases List.mem_cons.mp h1 with rfl | h1
        · exact List.mem_cons_self _ _
        · exact List.mem_cons_of_mem f (ih.mpr ⟨h1, h2⟩)

theorem mdel_sublist {α β : Type} [DecidableEq α] (m : List (α × β)) (k : α) :
    (mdel m k).Sublist m := by
  induction m with
  | nil => simp [mdel]
  | cons f m ih =>
    by_cases hf : f.1 = k
    · rw [mdel, if_pos hf]
      exact ih.cons f
    · rw [mdel, if_neg hf]
      exact ih.cons₂ f

theorem nodup_mdel {α β : Type} [DecidableEq α] (m : List (α × β)) (k : α)
    (hnd : (m.map Prod.fst).Nodup) : ((mdel m k).map Prod.fst).Nodup :=
  hnd.sublist ((mdel_sublist m k).map Prod.fst)

theorem mem_mset_weak {α β : Type} [DecidableEq α] (m : List (α × β)) (k : α) (v : β)
    (e : α × β) (he : e ∈ mset m k v) : e = (k, v) ∨ e ∈ m := by
  induction m with
  | nil => simpa [mset] using he
  | cons f m ih =>
    by_cases hf : f.1 = k
    · rw [mset, if_pos hf] at he
      rcases List.mem_cons.mp he with rfl | h1
      · exact Or.inl rfl
      · exact Or.inr (List.mem_cons_of_mem f h1)
    · rw [mset, if_neg hf] at he
      rcases List.mem_cons.mp he with rfl | h1
      · exact Or.inr (List.mem_cons_self _ _)
      · rcases ih h1 with h2 | h2
        · exact Or.inl h2
        · exact Or.inr (List.mem_cons_of_mem f h2)

theorem nodup_mset {α β : Type} [DecidableEq α] (m : List (α × β)) (k : α) (v : β)
    (hnd : (m.map Prod.fst).Nodup) : ((mset m k v).map Prod.fst).Nodup := by
  induction m with
  | nil => simp [mset]
  | cons f m ih =>
    rw [List.map_cons, List.nodup_cons] at hnd
    by_cases hf : f.1 = k
    · rw [mset, if_pos hf]
      rw [List.map_cons, List.nodup_cons]
      exact ⟨by simpa [← hf] using hnd.1, hnd.2⟩
    · rw [mset, if_neg hf]
      rw [List.map_cons, List.nodup_cons]
      constructor
      · intro hmem
        rcases List.mem_map.mp hmem with ⟨e, he, hefst⟩
        rcases mem_mset_weak m k v e he with rfl | hem
        · exact hf hefst.symm
        · exact hnd.1 (List.mem_map.mpr ⟨e, hem, hefst⟩)
      · exact ih hnd.2

theorem mget_eq_some_of_mem {α β : Type} [DecidableEq α] (m : List (α × β))
    (hnd : (m.map Prod.fst).Nodup) (e : α × β) (he : e ∈ m) :
    mget m e.1 = some e.2 := by
  induction m with
  | nil => simp at he
  | cons f m ih =>
    rw [List.map_cons, List.nodup_cons] at hnd
    rcases List.mem_cons.mp he with rfl | h1
    · rw [mget, if_pos rfl]
    · rw [mget]
      have hne : f.1 ≠ e.1 := by
        intro hx
        exact hnd.1 (hx ▸ List.mem_map.mpr ⟨e, h1, rfl⟩)
      rw [if_neg hne]
      exact ih hnd.2 h1

theorem mem_of_mget_some {α β : Type} [DecidableEq α] (m : List (α × β)) (k : α)
    (v : β) (h : mget m k = some v) : (k, v) ∈ m := by
  induction m with
  | nil => simp [mget] at h
  | cons f m ih =>
    rw [mget] at h
    by_cases hf : f.1 = k
    · rw [if_pos hf] at h
      injection h with h
      have : f = (k, v) := by
        rw [← hf, ← h]
      exact this ▸ List.mem_cons_self _ _
    · rw [if_neg hf] at h
      exact List.mem_cons_of_mem f (ih h)

theorem tsSorted_append {l : List PPkt} {p : PPkt} (h : tsSorted (l ++ [p])) :
    tsSorted l ∧ ∀ q ∈ l, q.ts ≤ p.ts := by
  rw [tsSorted, List.pairwise_append] at h
  exact ⟨h.1, fun q hq => h.2.2 q hq p (List.mem_singleton_self p)⟩

theorem tsSorted_filter {l : List PPkt} (f : PPkt → Bool) (h : tsSorted l) :
    tsSorted (l.filter f) :=
  List.Pairwise.sublist (List.filter_sublist l) h

theorem ts_le_getLast {l : List PPkt} (hs : tsSorted l) {x : PPkt} (hx : x ∈ l)
    {m : PPkt} (hm : l.getLast? = some m) : x.ts ≤ m.ts := by
  induction l with
  | nil => simp at hx
  | cons a t ih =>
    cases t with
    | nil =>
      rcases List.mem_singleton.mp hx with rfl
      simp only [List.getLast?_singleton, Option.some.injEq] at hm
      rw [hm]
    | cons b t2 =>
      rw [List.getLast?_cons_cons] at hm
      rcases List.mem_cons.mp hx with rfl | hx2
      · have hmem : m ∈ b :: t2 := by
          obtain ⟨hne, heq⟩ := List.mem_getLast?_eq_getLast (show m ∈ (b :: t2).getLast? from hm)
          rw [heq]
          exact List.getLast_mem hne
        exact (List.pairwise_cons.mp hs).1 m hmem
      · exact ih (List.pairwise_cons.mp hs).2 hx2 hm

theorem win_mono (d : Nat) {a b : PPkt} (h : a.ts ≤ b.ts) : win d a ≤ win d b := by
  unfold win byKey
  by_cases hd : 0 < d
  · simp only [if_pos hd]
    exact Nat.mul_le_mul_right d (Nat.div_le_div_right h)
  · simp [hd]

theorem win_code_eq {d : Nat} {p : PPkt} {k : CKey} (h : byKey p d = k) :
    p.code = k.code ∧ win d p = k.time := by
  constructor
  · rw [← h]
    rfl
  · rw [win, h]

theorem pktsOf_append (d : Nat) (l : List PPkt) (p : PPkt) (k : CKey) :
    pktsOf d (l ++ [p]) k =
      pktsOf d l k ++ if byKey p d = k then [p] else [] := by
  unfold pktsOf
  rw [List.filter_append]
  by_cases h : byKey p d = k <;> simp [h]

theorem closedK_append (d : Nat) (l : List PPkt) (p : PPkt) (k : CKey) :
    closedK d (l ++ [p]) k ↔
      closedK d l k ∨ (k.time ≠ 0 ∧ p.code = k.code ∧ k.time < win d p) := by
  unfold closedK
  constructor
  · rintro ⟨h0, q, hq, hc, hw⟩
    rcases List.mem_append.mp hq with hq2 | hq2
    · exact Or.inl ⟨h0, q, hq2, hc, hw⟩
    · rcases List.mem_singleton.mp hq2 with rfl
      exact Or.inr ⟨h0, hc, hw⟩
  · rintro (⟨h0, q, hq, hc, hw⟩ | ⟨h0, hc, hw⟩)
    · exact ⟨h0, q, List.mem_append.mpr (Or.inl hq), hc, hw⟩
    · exact ⟨h0, p, List.mem_append.mpr (Or.inr (List.mem_singleton_self p)), hc, hw⟩

theorem lastWinOf_append (d : Nat) (l : List PPkt) (p : PPkt) (c : List Nat) :
    lastWinOf d (l ++ [p]) c =
      if p.code = c then win d p else lastWinOf d l c := by
  unfold lastWinOf idPkts
  rw [List.filter_append]
  by_cases h : p.code = c
  · simp [h, List.getLast?_concat]
  · simp [h]

theorem mem_pktsOf {d : Nat} {l : List PPkt} {k : CKey} {q : PPkt} :
    q ∈ pktsOf d l k ↔ q ∈ l ∧ byKey q d = k := by
  unfold pktsOf
  rw [List.mem_filter]
  simp

theorem mem_idPkts {l : List PPkt} {c : List Nat} {q : PPkt} :
    q ∈ idPkts l c ↔ q ∈ l ∧ q.code = c := by
  unfold idPkts
  rw [List.mem_filter]
  simp

/-- Identity of the key a packet maps to: same code, origin the first
code byte, and window the packet's window. -/
theorem byKey_fields (p : PPkt) (d : Nat) :
    (byKey p d).code = p.code ∧ (byKey p d).origin = p.code.getD 0 0 ∧
      (byKey p d).time = win d p :=
  ⟨rfl, rfl, rfl⟩

theorem byKey_zero_eq_idKeyOf (p : PPkt) : byKey p 0 = idKeyOf p.code := rfl

theorem countRun_append (d : Nat) (l : List PPkt) (p : PPkt) :
    countRun d (l ++ [p]) = countStep d (countRun d l) p := by
  rw [countRun, countRun, List.foldl_append]
  rfl

/-- countStep when the packet's bucket is already open: only the bucket
is updated. -/
theorem countStep_hit (d : Nat) (s : CState) (p : PPkt) (cz : Coze)
    (h : mget s.stats (byKey p d) = some cz) :
    countStep d s p = { s with stats := mset s.stats (byKey p d) (acc1 cz p) } := by
  unfold countStep
  dsimp only
  rw [h]
  rfl

/-- countStep when the packet's key is new and the identity has a
recorded non-zero previous window: that window's bucket is emitted and
deleted, the keys entry moves to the new window, and a fresh bucket is
started from the zero Coze. -/
theorem countStep_miss_flush (d : Nat) (s : CState) (p : PPkt)
    (h : mget s.stats (byKey p d) = none)
    (hW : (mget s.keys (byKey p 0)).getD 0 ≠ 0) :
    countStep d s p =
      { stats := mset (mdel s.stats
            { byKey p 0 with time := (mget s.keys (byKey p 0)).getD 0 })
          (byKey p d) (acc1 Coze.zero p),
        keys := mset s.keys (byKey p 0) (byKey p d).time,
        emitted := s.emitted ++
          [({ byKey p 0 with time := (mget s.keys (byKey p 0)).getD 0 },
            (mget s.stats
              { byKey p 0 with time := (mget s.keys (byKey p 0)).getD 0 }).getD
              Coze.zero)] } := by
  unfold countStep
  dsimp only
  rw [h]
  simp only [Option.isSome_none, Bool.false_eq_true, if_false, if_pos hW, Option.getD_none]

/-- countStep when the packet's key is new and the identity has no
non-zero previous window: no emission, the keys entry is set, and a
fresh bucket is started. -/
theorem countStep_miss_noflush (d : Nat) (s : CState) (p : PPkt)
    (h : mget s.stats (byKey p d) = none)
    (hW : (mget s.keys (byKey p 0)).getD 0 = 0) :
    countStep d s p =
      { stats := mset s.stats (byKey p d) (acc1 Coze.zero p),
        keys := mset s.keys (byKey p 0) (byKey p d).time,
        emitted := s.emitted } := by
  unfold countStep
  dsimp only
  rw [h]
  have hnot : ¬ ((mget s.keys (byKey p 0)).getD 0 ≠ 0) := fun hx => hx hW
  simp only [Option.isSome_none, Bool.false_eq_true, if_false, if_neg hnot,
    Option.getD_none]

/-- Invariant of the countPackets loop over a time-sorted stream prefix l:
the keys map holds each identity's most recent window start; the stats
map holds exactly the buckets of the non-closed non-empty keys, each
bucket the accumulation of exactly its key's packets; the emitted list
holds exactly the closed non-empty keys with the same accumulated
buckets, with per-identity emissions in strictly increasing window
order. -/
structure CInv (d : Nat) (l : List PPkt) (s : CState) : Prop where
  hkeys : ∀ c : List Nat, (mget s.keys (idKeyOf c)).getD 0 = lastWinOf d l c
  hstats_pos : ∀ k : CKey, pktsOf d l k ≠ [] → ¬ closedK d l k →
      mget s.stats k = some (accum (pktsOf d l k))
  hstats_neg : ∀ k : CKey, (pktsOf d l k = [] ∨ closedK d l k) → mget s.stats k = none
  hnodup : (s.stats.map Prod.fst).Nodup
  hem : ∀ e ∈ s.emitted, closedK d l e.1 ∧ pktsOf d l e.1 ≠ [] ∧
      e.2 = accum (pktsOf d l e.1)
  hemAll : ∀ k : CKey, closedK d l k → pktsOf d l k ≠ [] →
      (k, accum (pktsOf d l k)) ∈ s.emitted
  hemOrd : s.emitted.Pairwise (fun e1 e2 => e1.1.code = e2.1.code → e1.1.time < e2.1.time)

theorem cinv_nil (d : Nat) : CInv d [] ⟨[], [], []⟩ := by
  refine ⟨?_, ?_, ?_, ?_, ?_, ?_, ?_⟩
  · intro c; rfl
  · intro k hk
    exact absurd rfl hk
  · intro k
    intro
    rfl
  · simp
  · intro e he; simp at he
  · rintro k ⟨h0, q, hq, hrest⟩
    simp at hq
  · simp

/-- Invariant preservation when the packet's bucket is already open. -/
theorem cinv_step_hit (d : Nat) (l : List PPkt) (p : PPkt) (s : CState)
    (hinv : CInv d l s) (hsl : tsSorted l) (hple : ∀ q ∈ l, q.ts ≤ p.ts)
    (cz : Coze) (hK : mget s.stats (byKey p d) = some cz) :
    CInv d (l ++ [p]) (countStep d s p) := by
  have hKa : ¬ (pktsOf d l (byKey p d) = [] ∨ closedK d l (byKey p d)) := by
    intro hx
    rw [hinv.hstats_neg _ hx] at hK
    exact Option.noConfusion hK
  push_neg at hKa
  obtain ⟨hKne, hKnc⟩ := hKa
  have hcz : cz = accum (pktsOf d l (byKey p d)) := by
    have h2 := hinv.hstats_pos _ hKne hKnc
    rw [hK] at h2
    exact Option.some.inj h2
  obtain ⟨q0, hq0p⟩ := List.exists_mem_of_ne_nil _ hKne
  obtain ⟨hq0l, hq0k⟩ := mem_pktsOf.mp hq0p
  have hq0code : q0.code = p.code := (win_code_eq hq0k).1
  have hq0win : win d q0 = win d p := (win_code_eq hq0k).2
  have hwle : ∀ q ∈ l, q.code = p.code → win d q ≤ win d p :=
    fun q hq _ => win_mono d (hple q hq)
  have hlw : lastWinOf d l p.code = win d p := by
    have hmem : q0 ∈ idPkts l p.code := mem_idPkts.mpr ⟨hq0l, hq0code⟩
    have hne2 : idPkts l p.code ≠ [] := List.ne_nil_of_mem hmem
    obtain ⟨m, hm⟩ : ∃ m, (idPkts l p.code).getLast? = some m := by
      cases hgl : (idPkts l p.code).getLast? with
      | none => exact absurd (List.getLast?_eq_none_iff.mp hgl) hne2
      | some m => exact ⟨m, rfl⟩
    have hm_mem : m ∈ idPkts l p.code := by
      obtain ⟨hne3, heq⟩ :=
        List.mem_getLast?_eq_getLast (show m ∈ (idPkts l p.code).getLast? from hm)
      rw [heq]
      exact List.getLast_mem hne3
    obtain ⟨hml, hmcode⟩ := mem_idPkts.mp hm_mem
    have h1 : win d m ≤ win d p := hwle m hml hmcode
    have h2 : win d q0 ≤ win d m :=
      win_mono d (ts_le_getLast (tsSorted_filter _ hsl) hmem hm)
    unfold lastWinOf
    rw [hm]
    show win d m = win d p
    omega
  have hclose_new : ∀ k' : CKey, k'.time ≠ 0 → p.code = k'.code → k'.time < win d p →
      closedK d l k' := by
    intro k' ht hc hw
    exact ⟨ht, q0, hq0l, hq0code.trans hc, by rw [hq0win]; exact hw⟩
  have hclosed_iff : ∀ k' : CKey, closedK d (l ++ [p]) k' ↔ closedK d l k' := by
    intro k'
    rw [closedK_append]
    constructor
    · rintro (hx | ⟨ht, hc, hw⟩)
      · exact hx
      · exact hclose_new k' ht hc hw
    · exact Or.inl
  have hKne_app : pktsOf d (l ++ [p]) (byKey p d) ≠ [] := by
    rw [pktsOf_append, if_pos rfl]
    simp
  have hpkts_other : ∀ k' : CKey, k' ≠ byKey p d →
      pktsOf d (l ++ [p]) k' = pktsOf d l k' := by
    intro k' hk
    rw [pktsOf_append, if_neg (fun hx => hk hx.symm), List.append_nil]
  rw [countStep_hit d s p cz hK]
  refine ⟨?_, ?_, ?_, ?_, ?_, ?_, ?_⟩
  · intro c
    rw [lastWinOf_append]
    by_cases hc : p.code = c
    · subst hc
      rw [if_pos rfl]
      have h3 := hinv.hkeys p.code
      rw [h3, hlw]
    · rw [if_neg hc]
      exact hinv.hkeys c
  · intro k' hne hnc
    by_cases hk : byKey p d = k'
    · subst hk
      show mget (mset s.stats (byKey p d) (acc1 cz p)) (byKey p d) = _
      rw [mget_mset, if_pos rfl, pktsOf_append, if_pos rfl]
      rw [accum, List.foldl_append, ← accum, ← hcz]
      rfl
    · show mget (mset s.stats (byKey p d) (acc1 cz p)) k' = _
      rw [mget_mset, if_neg hk]
      rw [hpkts_other k' (fun hx => hk hx.symm)] at hne ⊢
      exact hinv.hstats_pos k' hne (fun hx => hnc ((hclosed_iff k').mpr hx))
  · intro k' hx
    by_cases hk : byKey p d = k'
    · subst hk
      exfalso
      rcases hx with hx | hx
      · exact hKne_app hx
      · exact hKnc ((hclosed_iff _).mp hx)
    · show mget (mset s.stats (byKey p d) (acc1 cz p)) k' = none
      rw [mget_mset, if_neg hk]
      apply hinv.hstats_neg
      rcases hx with hx | hx
      · left
        rw [← hpkts_other k' (fun h2 => hk h2.symm)]
        exact hx
      · right
        exact (hclosed_iff _).mp hx
  · exact nodup_mset _ _ _ hinv.hnodup
  · intro e he
    obtain ⟨h1, h2, h3⟩ := hinv.hem e he
    have hek : e.1 ≠ byKey p d := fun hx => hKnc (hx ▸ h1)
    rw [hpkts_other e.1 hek]
    exact ⟨(hclosed_iff _).mpr h1, h2, h3⟩
  · intro k' hcl hne
    have h1 : closedK d l k' := (hclosed_iff _).mp hcl
    have hek : k' ≠ byKey p d := fun hx => hKnc (hx ▸ h1)
    rw [hpkts_other k' hek]
    rw [hpkts_other k' hek] at hne
    exact hinv.hemAll k' h1 hne
  · exact hinv.hemOrd

theorem byKey_eq_of {d : Nat} {a b : PPkt} (hc : a.code = b.code)
    (hw : win d a = win d b) : byKey a d = byKey b d := by
  have hw2 : (if 0 < d then a.ts / d * d else 0) = (if 0 < d then b.ts / d * d else 0) := hw
  show (⟨a.code.getD 0 0, a.code, if 0 < d then a.ts / d * d else 0⟩ : CKey) = byKey b d
  rw [hc, hw2]
  rfl

theorem closedK_mono (d : Nat) (l : List PPkt) (p : PPkt) (k : CKey)
    (h : closedK d l k) : closedK d (l ++ [p]) k :=
  (closedK_append d l p k).mpr (Or.inl h)

/-- Invariant preservation when the packet opens a new key and the
identity has a non-zero previous window: the eager flush case. -/
theorem cinv_step_flush (d : Nat) (l : List PPkt) (p : PPkt) (s : CState)
    (hinv : CInv d l s) (hsl : tsSorted l) (hple : ∀ q ∈ l, q.ts ≤ p.ts)
    (hK : mget s.stats (byKey p d) = none)
    (hPW : (mget s.keys (byKey p 0)).getD 0 ≠ 0) :
    CInv d (l ++ [p]) (countStep d s p) := by
  have hkey0 : (mget s.keys (byKey p 0)).getD 0 = lastWinOf d l p.code := by
    rw [byKey_zero_eq_idKeyOf]
    exact hinv.hkeys p.code
  have hPW2 : lastWinOf d l p.code ≠ 0 := by
    rw [← hkey0]
    exact hPW
  have hne2 : idPkts l p.code ≠ [] := by
    intro hx
    apply hPW2
    unfold lastWinOf
    rw [hx]
    rfl
  obtain ⟨m, hm⟩ : ∃ m, (idPkts l p.code).getLast? = some m := by
    cases hgl : (idPkts l p.code).getLast? with
    | none => exact absurd (List.getLast?_eq_none_iff.mp hgl) hne2
    | some m => exact ⟨m, rfl⟩
  have hm_mem : m ∈ idPkts l p.code := by
    obtain ⟨hne3, heq⟩ :=
      List.mem_getLast?_eq_getLast (show m ∈ (idPkts l p.code).getLast? from hm)
    rw [heq]
    exact List.getLast_mem hne3
  obtain ⟨hml, hmcode⟩ := mem_idPkts.mp hm_mem
  have hmwin : win d m = lastWinOf d l p.code := by
    unfold lastWinOf
    rw [hm]
    rfl
  have hwlast : ∀ q ∈ l, q.code = p.code → win d q ≤ lastWinOf d l p.code := by
    intro q hq hqc
    rw [← hmwin]
    exact win_mono d (ts_le_getLast (tsSorted_filter _ hsl) (mem_idPkts.mpr ⟨hq, hqc⟩) hm)
  have hKnotclosed : ¬ closedK d l (byKey p d) := by
    rintro ⟨ht, r, hr, hrc, hrw⟩
    have h1 : win d r ≤ win d p := win_mono d (hple r hr)
    have h2 : win d p < win d r := hrw
    omega
  have hKempty : pktsOf d l (byKey p d) = [] := by
    by_contra hx
    rw [hinv.hstats_pos _ hx hKnotclosed] at hK
    exact Option.noConfusion hK
  have hprev_lt : lastWinOf d l p.code < win d p := by
    have h1 : win d m ≤ win d p := win_mono d (hple m hml)
    rcases Nat.lt_or_ge (win d m) (win d p) with h2 | h2
    · omega
    · exfalso
      have h3 : win d m = win d p := by omega
      have h4 : byKey m d = byKey p d := byKey_eq_of hmcode h3
      have h5 : m ∈ pktsOf d l (byKey p d) := mem_pktsOf.mpr ⟨hml, h4⟩
      rw [hKempty] at h5
      simp at h5
  have htmp_eq : byKey m d =
      { byKey p 0 with time := (mget s.keys (byKey p 0)).getD 0 } := by
    show (⟨m.code.getD 0 0, m.code, win d m⟩ : CKey) =
      ⟨p.code.getD 0 0, p.code, (mget s.keys (byKey p 0)).getD 0⟩
    rw [hmcode, hmwin, hkey0]
  have htmp_pkts : pktsOf d l { byKey p 0 with time := (mget s.keys (byKey p 0)).getD 0 } ≠ [] :=
    List.ne_nil_of_mem (mem_pktsOf.mpr ⟨hml, htmp_eq⟩)
  have htmp_notclosed :
      ¬ closedK d l { byKey p 0 with time := (mget s.keys (byKey p 0)).getD 0 } := by
    rintro ⟨ht, r, hr, hrc, hrw⟩
    have h1 : win d r ≤ lastWinOf d l p.code := hwlast r hr hrc
    have h2 : lastWinOf d l p.code < win d r := by
      have h3 : ({ byKey p 0 with time := (mget s.keys (byKey p 0)).getD 0 } : CKey).time =
          lastWinOf d l p.code := hkey0
      rw [← h3]
      exact hrw
    omega
  have htmp_stats : mget s.stats { byKey p 0 with time := (mget s.keys (byKey p 0)).getD 0 } =
      some (accum (pktsOf d l { byKey p 0 with time := (mget s.keys (byKey p 0)).getD 0 })) :=
    hinv.hstats_pos _ htmp_pkts htmp_notclosed
  have htmp_ne_K : ({ byKey p 0 with time := (mget s.keys (byKey p 0)).getD 0 } : CKey) ≠
      byKey p d := by
    intro hx
    have h1 : (mget s.keys (byKey p 0)).getD 0 = win d p := congrArg CKey.time hx
    rw [hkey0] at h1
    omega
  have hclosed_tmp_app :
      closedK d (l ++ [p]) { byKey p 0 with time := (mget s.keys (byKey p 0)).getD 0 } := by
    refine ⟨hPW, p, List.mem_append.mpr (Or.inr (List.mem_singleton_self p)), rfl, ?_⟩
    show (mget s.keys (byKey p 0)).getD 0 < win d p
    rw [hkey0]
    exact hprev_lt
  have subB : ∀ k' : CKey, k'.time ≠ 0 → p.code = k'.code → k'.time < win d p →
      k' ≠ { byKey p 0 with time := (mget s.keys (byKey p 0)).getD 0 } →
      (pktsOf d l k' = [] ∨ closedK d l k') := by
    intro k' ht hc hw hkt
    by_cases hpe : pktsOf d l k' = []
    · exact Or.inl hpe
    right
    obtain ⟨q', hq'p⟩ := List.exists_mem_of_ne_nil _ hpe
    obtain ⟨hq'l, hq'k⟩ := mem_pktsOf.mp hq'p
    have hq'c : q'.code = k'.code := (win_code_eq hq'k).1
    have hq'w : win d q' = k'.time := (win_code_eq hq'k).2
    have hq'cp : q'.code = p.code := hq'c.trans hc.symm
    have h1 : win d q' ≤ lastWinOf d l p.code := hwlast q' hq'l hq'cp
    rcases Nat.lt_or_ge k'.time (lastWinOf d l p.code) with h2 | h2
    · exact ⟨ht, m, hml, hmcode.trans hc, by rw [hmwin]; omega⟩
    · exfalso
      apply hkt
      have h3 : k'.time = lastWinOf d l p.code := by omega
      have h4 : byKey q' d = byKey m d := byKey_eq_of (hq'cp.trans hmcode.symm) (by omega)
      rw [← hq'k, h4, htmp_eq]
  have hpkts_other : ∀ k' : CKey, k' ≠ byKey p d →
      pktsOf d (l ++ [p]) k' = pktsOf d l k' := by
    intro k' hk
    rw [pktsOf_append, if_neg (fun hx => hk hx.symm), List.append_nil]
  have hKapp : pktsOf d (l ++ [p]) (byKey p d) = [p] := by
    rw [pktsOf_append, if_pos rfl, hKempty, List.nil_append]
  rw [countStep_miss_flush d s p hK hPW]
  refine ⟨?_, ?_, ?_, ?_, ?_, ?_, ?_⟩
  · intro c
    rw [lastWinOf_append]
    show (mget (mset s.keys (byKey p 0) (byKey p d).time) (idKeyOf c)).getD 0 = _
    by_cases hc : p.code = c
    · subst hc
      rw [← byKey_zero_eq_idKeyOf, mget_mset, if_pos rfl, if_pos rfl]
      rfl
    · rw [mget_mset, if_neg (fun hx => hc (congrArg CKey.code hx)), if_neg hc]
      exact hinv.hkeys c
  · intro k' hne hnc
    show mget (mset (mdel s.stats _) (byKey p d) (acc1 Coze.zero p)) k' = _
    by_cases hk : byKey p d = k'
    · subst hk
      rw [mget_mset, if_pos rfl, hKapp]
      rfl
    · rw [mget_mset, if_neg hk, mget_mdel]
      by_cases hkt : k' = { byKey p 0 with time := (mget s.keys (byKey p 0)).getD 0 }
      · exfalso
        apply hnc
        rw [hkt]
        exact hclosed_tmp_app
      · rw [if_neg hkt]
        rw [hpkts_other k' (fun hx => hk hx.symm)] at hne ⊢
        exact hinv.hstats_pos k' hne (fun hx => hnc (closedK_mono d l p k' hx))
  · intro k' hx
    show mget (mset (mdel s.stats _) (byKey p d) (acc1 Coze.zero p)) k' = none
    by_cases hk : byKey p d = k'
    · exfalso
      subst hk
      rcases hx with hx | hx
      · rw [hKapp] at hx
        simp at hx
      · rcases (closedK_append d l p _).mp hx with hx2 | ⟨ht, hc, hw⟩
        · exact hKnotclosed hx2
        · have h2 : (byKey p d).time = win d p := rfl
          rw [h2] at hw
          omega
    · rw [mget_mset, if_neg hk, mget_mdel]
      by_cases hkt : k' = { byKey p 0 with time := (mget s.keys (byKey p 0)).getD 0 }
      · rw [if_pos hkt]
      · rw [if_neg hkt]
        apply hinv.hstats_neg
        rcases hx with hx | hx
        · left
          rw [← hpkts_other k' (fun h2 => hk h2.symm)]
          exact hx
        · rcases (closedK_append d l p _).mp hx with hx2 | ⟨ht, hc, hw⟩
          · exact Or.inr hx2
          · exact subB k' ht hc hw hkt
  · exact nodup_mset _ _ _ (nodup_mdel _ _ hinv.hnodup)
  · intro e he
    rcases List.mem_append.mp he with he2 | he2
    · obtain ⟨h1, h2, h3⟩ := hinv.hem e he2
      have hek : e.1 ≠ byKey p d := by
        intro hx
        exact hKnotclosed (hx ▸ h1)
      rw [hpkts_other e.1 hek]
      exact ⟨closedK_mono d l p e.1 h1, h2, h3⟩
    · rcases List.mem_singleton.mp he2 with rfl
      refine ⟨hclosed_tmp_app, ?_, ?_⟩
      · rw [hpkts_other _ htmp_ne_K]
        exact htmp_pkts
      · rw [hpkts_other _ htmp_ne_K]
        show (mget s.stats _).getD Coze.zero = _
        rw [htmp_stats]
        rfl
  · intro k' hcl hne
    rcases (closedK_append d l p k').mp hcl with hx2 | ⟨ht, hc, hw⟩
    · have hek : k' ≠ byKey p d := by
        intro hx
        exact hKnotclosed (hx ▸ hx2)
      rw [hpkts_other k' hek] at hne ⊢
      exact List.mem_append.mpr (Or.inl (hinv.hemAll k' hx2 hne))
    · have hek : k' ≠ byKey p d := by
        intro hx
        have h2 : (byKey p d).time = win d p := rfl
        rw [hx, h2] at hw
        omega
      rw [hpkts_other k' hek] at hne ⊢
      by_cases hkt : k' = { byKey p 0 with time := (mget s.keys (byKey p 0)).getD 0 }
      · subst hkt
        have h5 : (mget s.stats
              { byKey p 0 with time := (mget s.keys (byKey p 0)).getD 0 }).getD Coze.zero =
            accum (pktsOf d l
              { byKey p 0 with time := (mget s.keys (byKey p 0)).getD 0 }) := by
          rw [htmp_stats]
          rfl
        rw [← h5]
        exact List.mem_append.mpr (Or.inr (List.mem_singleton_self _))
      · rcases subB k' ht hc hw hkt with hx3 | hx3
        · exact absurd hx3 hne
        · exact List.mem_append.mpr (Or.inl (hinv.hemAll k' hx3 hne))
  · rw [List.pairwise_append]
    refine ⟨hinv.hemOrd, List.pairwise_singleton _ _, ?_⟩
    intro e1 he1 e2 he2
    rcases List.mem_singleton.mp he2 with rfl
    intro hcode
    obtain ⟨⟨ht1, r, hr, hrc, hrw⟩, _, _⟩ := hinv.hem e1 he1
    have hcode2 : e1.1.code = p.code := hcode
    have h1 : win d r ≤ lastWinOf d l p.code := hwlast r hr (by rw [hrc]; exact hcode2)
    show e1.1.time < (mget s.keys (byKey p 0)).getD 0
    rw [hkey0]
    omega
/-- Invariant preservation when the packet opens a new key and the
identity has no non-zero previous window: no flush occurs. -/
theorem cinv_step_noflush (d : Nat) (l : List PPkt) (p : PPkt) (s : CState)
    (hinv : CInv d l s) (hsl : tsSorted l) (hple : ∀ q ∈ l, q.ts ≤ p.ts)
    (hK : mget s.stats (byKey p d) = none)
    (hPW : (mget s.keys (byKey p 0)).getD 0 = 0) :
    CInv d (l ++ [p]) (countStep d s p) := by
  have hkey0 : (mget s.keys (byKey p 0)).getD 0 = lastWinOf d l p.code := by
    rw [byKey_zero_eq_idKeyOf]
    exact hinv.hkeys p.code
  have hLW0 : lastWinOf d l p.code = 0 := by
    rw [← hkey0]
    exact hPW
  have hwin0 : ∀ q ∈ l, q.code = p.code → win d q = 0 := by
    intro q hq hqc
    have hqm : q ∈ idPkts l p.code := mem_idPkts.mpr ⟨hq, hqc⟩
    obtain ⟨m, hm⟩ : ∃ m, (idPkts l p.code).getLast? = some m := by
      cases hgl : (idPkts l p.code).getLast? with
      | none =>
        rw [List.getLast?_eq_none_iff] at hgl
        rw [hgl] at hqm
        simp at hqm
      | some m => exact ⟨m, rfl⟩
    have h1 : win d q ≤ win d m :=
      win_mono d (ts_le_getLast (tsSorted_filter _ hsl) hqm hm)
    have h2 : win d m = lastWinOf d l p.code := by
      unfold lastWinOf
      rw [hm]
      rfl
    omega
  have hKnotclosed : ¬ closedK d l (byKey p d) := by
    rintro ⟨ht, r, hr, hrc, hrw⟩
    have h1 : win d r ≤ win d p := win_mono d (hple r hr)
    have h2 : (byKey p d).time < win d r := hrw
    have h3 : (byKey p d).time = win d p := rfl
    omega
  have hKempty : pktsOf d l (byKey p d) = [] := by
    by_contra hx
    rw [hinv.hstats_pos _ hx hKnotclosed] at hK
    exact Option.noConfusion hK
  have hKapp : pktsOf d (l ++ [p]) (byKey p d) = [p] := by
    rw [pktsOf_append, if_pos rfl, hKempty, List.nil_append]
  have hpkts_other : ∀ k' : CKey, k' ≠ byKey p d →
      pktsOf d (l ++ [p]) k' = pktsOf d l k' := by
    intro k' hk
    rw [pktsOf_append, if_neg (fun hx => hk hx.symm), List.append_nil]
  have hnew_empty : ∀ k' : CKey, k'.time ≠ 0 → p.code = k'.code →
      pktsOf d l k' = [] := by
    intro k' ht hc
    by_contra hx
    obtain ⟨q', hq'p⟩ := List.exists_mem_of_ne_nil _ hx
    obtain ⟨hq'l, hq'k⟩ := mem_pktsOf.mp hq'p
    have h1 : win d q' = k'.time := (win_code_eq hq'k).2
    have h2 : q'.code = p.code := (win_code_eq hq'k).1.trans hc.symm
    have h3 := hwin0 q' hq'l h2
    omega
  rw [countStep_miss_noflush d s p hK hPW]
  refine ⟨?_, ?_, ?_, ?_, ?_, ?_, ?_⟩
  · intro c
    rw [lastWinOf_append]
    show (mget (mset s.keys (byKey p 0) (byKey p d).time) (idKeyOf c)).getD 0 = _
    by_cases hc : p.code = c
    · subst hc
      rw [← byKey_zero_eq_idKeyOf, mget_mset, if_pos rfl, if_pos rfl]
      rfl
    · rw [mget_mset, if_neg (fun hx => hc (congrArg CKey.code hx)), if_neg hc]
      exact hinv.hkeys c
  · intro k' hne hnc
    show mget (mset s.stats (byKey p d) (acc1 Coze.zero p)) k' = _
    by_cases hk : byKey p d = k'
    · subst hk
      rw [mget_mset, if_pos rfl, hKapp]
      rfl
    · rw [mget_mset, if_neg hk]
      rw [hpkts_other k' (fun hx => hk hx.symm)] at hne ⊢
      exact hinv.hstats_pos k' hne (fun hx => hnc (closedK_mono d l p k' hx))
  · intro k' hx
    show mget (mset s.stats (byKey p d) (acc1 Coze.zero p)) k' = none
    by_cases hk : byKey p d = k'
    · exfalso
      subst hk
      rcases hx with hx | hx
      · rw [hKapp] at hx
        simp at hx
      · rcases (closedK_append d l p _).mp hx with hx2 | ⟨ht, hc, hw⟩
        · exact hKnotclosed hx2
        · have h2 : (byKey p d).time = win d p := rfl
          rw [h2] at hw
          omega
    · rw [mget_mset, if_neg hk]
      apply hinv.hstats_neg
      rcases hx with hx | hx
      · left
        rw [← hpkts_other k' (fun h2 => hk h2.symm)]
        exact hx
      · rcases (closedK_append d l p _).mp hx with hx2 | ⟨ht, hc, hw⟩
        · exact Or.inr hx2
        · exact Or.inl (hnew_empty k' ht hc)
  · exact nodup_mset _ _ _ hinv.hnodup
  · intro e he
    obtain ⟨h1, h2, h3⟩ := hinv.hem e he
    have hek : e.1 ≠ byKey p d := fun hx => hKnotclosed (hx ▸ h1)
    rw [hpkts_other e.1 hek]
    exact ⟨closedK_mono d l p e.1 h1, h2, h3⟩
  · intro k' hcl hne
    rcases (closedK_append d l p k').mp hcl with hx2 | ⟨ht, hc, hw⟩
    · have hek : k' ≠ byKey p d := fun hx => hKnotclosed (hx ▸ hx2)
      rw [hpkts_other k' hek] at hne ⊢
      exact hinv.hemAll k' hx2 hne
    · exfalso
      have hek : k' ≠ byKey p d := by
        intro hx
        have h2 : (byKey p d).time = win d p := rfl
        rw [hx, h2] at hw
        omega
      rw [hpkts_other k' hek] at hne
      exact hne (hnew_empty k' ht hc)
  · exact hinv.hemOrd

/-- Invariant preservation for one countPackets iteration over a sorted
stream. -/
theorem cinv_step (d : Nat) (l : List PPkt) (p : PPkt) (s : CState)
    (hinv : CInv d l s) (hs : tsSorted (l ++ [p])) :
    CInv d (l ++ [p]) (countStep d s p) := by
  obtain ⟨hsl, hple⟩ := tsSorted_append hs
  cases hK : mget s.stats (byKey p d) with
  | some cz => exact cinv_step_hit d l p s hinv hsl hple cz hK
  | none =>
    by_cases hPW : (mget s.keys (byKey p 0)).getD 0 = 0
    · exact cinv_step_noflush d l p s hinv hsl hple hK hPW
    · exact cinv_step_flush d l p s hinv hsl hple hK hPW

/-- The countPackets loop invariant holds after processing any sorted
stream. -/
theorem cinv_countRun (d : Nat) (l : List PPkt) (hs : tsSorted l) :
    CInv d l (countRun d l) := by
  induction l using List.reverseRecOn with
  | nil => exact cinv_nil d
  | append_singleton l p ih =>
    rw [countRun_append]
    exact cinv_step d l p (countRun d l) (ih (tsSorted_append hs).1) hs

theorem U64_pos : 0 < U64 := by
  unfold U64
  omega

theorem acc1_count (cz : Coze) (p : PPkt) : (acc1 cz p).count = (cz.count + 1) % U64 := rfl

theorem foldl_count (ps : List PPkt) (cz : Coze) (hc : cz.count < U64) :
    (ps.foldl acc1 cz).count = (cz.count + ps.length) % U64 := by
  induction ps generalizing cz with
  | nil =>
    simp only [List.foldl_nil, List.length_nil, Nat.add_zero]
    exact (Nat.mod_eq_of_lt hc).symm
  | cons q ps ih =>
    rw [List.foldl_cons, ih (acc1 cz q) (Nat.mod_lt _ U64_pos), acc1_count]
    rw [Nat.mod_add_mod]
    rw [List.length_cons]
    congr 1
    omega

theorem acc1_size (cz : Coze) (p : PPkt) : (acc1 cz p).size = (cz.size + p.len) % U64 := rfl

theorem foldl_size (ps : List PPkt) (cz : Coze) (hc : cz.size < U64) :
    (ps.foldl acc1 cz).size = (cz.size + (ps.map (fun q => q.len)).sum) % U64 := by
  induction ps generalizing cz with
  | nil =>
    simp only [List.foldl_nil, List.map_nil, List.sum_nil, Nat.add_zero]
    exact (Nat.mod_eq_of_lt hc).symm
  | cons q ps ih =>
    rw [List.foldl_cons, ih (acc1 cz q) (Nat.mod_lt _ U64_pos), acc1_size]
    rw [Nat.mod_add_mod]
    rw [List.map_cons, List.sum_cons]
    congr 1
    omega

theorem foldl_startTime_stable (ps : List PPkt) (cz : Coze) (h : cz.startTime ≠ 0) :
    (ps.foldl acc1 cz).startTime = cz.startTime := by
  induction ps generalizing cz with
  | nil => rfl
  | cons q ps ih =>
    rw [List.foldl_cons]
    have h2 : (acc1 cz q).startTime = cz.startTime := by
      show (if cz.startTime = 0 then q.ts else cz.startTime) = cz.startTime
      rw [if_neg h]
    rw [ih (acc1 cz q) (h2 ▸ h), h2]

theorem foldl_startTime_head (q : PPkt) (rest : List PPkt) (cz : Coze)
    (h : cz.startTime = 0) (hq : 0 < q.ts) :
    ((q :: rest).foldl acc1 cz).startTime = q.ts := by
  rw [List.foldl_cons]
  have h2 : (acc1 cz q).startTime = q.ts := by
    show (if cz.startTime = 0 then q.ts else cz.startTime) = q.ts
    rw [if_pos h]
  rw [foldl_startTime_stable rest (acc1 cz q) (by rw [h2]; omega), h2]

theorem foldl_endTime (ps : List PPkt) (cz : Coze) (m : PPkt)
    (hm : ps.getLast? = some m) : (ps.foldl acc1 cz).endTime = m.ts := by
  revert hm
  induction ps generalizing cz m with
  | nil =>
    intro hm
    simp at hm
  | cons q ps ih =>
    intro hm
    rw [List.foldl_cons]
    cases hps : ps with
    | nil =>
      subst hps
      simp only [List.getLast?_singleton, Option.some.injEq] at hm
      rw [← hm]
      rfl
    | cons r rest =>
      subst hps
      rw [List.getLast?_cons_cons] at hm
      exact ih (acc1 cz q) m hm
theorem sum_map_le_of_sublist (l1 l2 : List PPkt) (hs : l1.Sublist l2) :
    (l1.map (fun q => q.len)).sum ≤ (l2.map (fun q => q.len)).sum := by
  induction hs with
  | slnil => simp
  | cons a hs2 ih =>
    rw [List.map_cons, List.sum_cons]
    omega
  | cons₂ a hs2 ih =>
    rw [List.map_cons, List.sum_cons, List.map_cons, List.sum_cons]
    omega

/-- C3 (amended): bucket accumulation over a time-sorted stream with
non-zero timestamps (the external timestamp codec never returns the Go
zero time) and fewer than 2^64 packets and total bytes (the Go uint64
counters do not wrap).  Every bucket countPackets emits — eagerly or in
the final flush — carries the exact number of packets of its
(identity, window) key, the exact sum of their len fields, and start/end
times that are the minimum and maximum (equivalently first and last)
timestamps observed for that key. -/
theorem countPackets_bucket_stats (d : Nat) (l : List PPkt)
    (hsort : tsSorted l) (hpos : ∀ q ∈ l, 0 < q.ts)
    (hlen : l.length < U64) (hsize : (l.map (fun q => q.len)).sum < U64) :
    ∀ e ∈ countPackets d l,
      pktsOf d l e.1 ≠ [] ∧
      e.2.count = (pktsOf d l e.1).length ∧
      e.2.size = ((pktsOf d l e.1).map (fun q => q.len)).sum ∧
      e.2.startTime ∈ (pktsOf d l e.1).map (fun q => q.ts) ∧
      e.2.endTime ∈ (pktsOf d l e.1).map (fun q => q.ts) ∧
      ∀ q ∈ pktsOf d l e.1, e.2.startTime ≤ q.ts ∧ q.ts ≤ e.2.endTime := by
  intro e he
  have hinv := cinv_countRun d l hsort
  have hchar : pktsOf d l e.1 ≠ [] ∧ e.2 = accum (pktsOf d l e.1) := by
    rcases List.mem_append.mp he with he2 | he2
    · obtain ⟨h1, h2, h3⟩ := hinv.hem e he2
      exact ⟨h2, h3⟩
    · have h4 : mget (countRun d l).stats e.1 = some e.2 :=
        mget_eq_some_of_mem _ hinv.hnodup e he2
      by_cases hx : pktsOf d l e.1 = [] ∨ closedK d l e.1
      · rw [hinv.hstats_neg _ hx] at h4
        exact Option.noConfusion h4
      · push_neg at hx
        rw [hinv.hstats_pos _ hx.1 hx.2] at h4
        exact ⟨hx.1, (Option.some.inj h4).symm⟩
  obtain ⟨hne, hacc⟩ := hchar
  have hsub : (pktsOf d l e.1).Sublist l := List.filter_sublist l
  have hsorted2 : tsSorted (pktsOf d l e.1) := tsSorted_filter _ hsort
  obtain ⟨q0, rest, hq0⟩ : ∃ q0 rest, pktsOf d l e.1 = q0 :: rest := by
    cases hps : pktsOf d l e.1 with
    | nil => exact absurd hps hne
    | cons a b => exact ⟨a, b, rfl⟩
  obtain ⟨m, hm⟩ : ∃ m, (pktsOf d l e.1).getLast? = some m := by
    cases hgl : (pktsOf d l e.1).getLast? with
    | none => exact absurd (List.getLast?_eq_none_iff.mp hgl) hne
    | some m => exact ⟨m, rfl⟩
  have hm_mem : m ∈ pktsOf d l e.1 := by
    obtain ⟨hne3, heq⟩ :=
      List.mem_getLast?_eq_getLast (show m ∈ (pktsOf d l e.1).getLast? from hm)
    rw [heq]
    exact List.getLast_mem hne3
  have hq0_mem : q0 ∈ pktsOf d l e.1 := by
    rw [hq0]
    simp
  have hq0_pos : 0 < q0.ts := hpos q0 (mem_pktsOf.mp hq0_mem).1
  have hstart : (accum (pktsOf d l e.1)).startTime = q0.ts := by
    rw [hq0, accum, foldl_startTime_head q0 rest Coze.zero rfl hq0_pos]
  have hend : (accum (pktsOf d l e.1)).endTime = m.ts := by
    rw [accum, foldl_endTime _ _ m hm]
  refine ⟨hne, ?_, ?_, ?_, ?_, ?_⟩
  · rw [hacc, accum, foldl_count _ _ U64_pos]
    show (0 + (pktsOf d l e.1).length) % U64 = _
    rw [Nat.zero_add]
    exact Nat.mod_eq_of_lt (lt_of_le_of_lt hsub.length_le hlen)
  · rw [hacc, accum, foldl_size _ _ U64_pos]
    show (0 + ((pktsOf d l e.1).map (fun q => q.len)).sum) % U64 = _
    rw [Nat.zero_add]
    exact Nat.mod_eq_of_lt (lt_of_le_of_lt (sum_map_le_of_sublist _ _ hsub) hsize)
  · rw [hacc, hstart]
    exact List.mem_map.mpr ⟨q0, hq0_mem, rfl⟩
  · rw [hacc, hend]
    exact List.mem_map.mpr ⟨m, hm_mem, rfl⟩
  · intro q hq
    constructor
    · rw [hacc, hstart]
      rw [hq0] at hq hsorted2
      rcases List.mem_cons.mp hq with rfl | hq2
      · exact Nat.le_refl _
      · exact (List.pairwise_cons.mp hsorted2).1 q hq2
    · rw [hacc, hend]
      exact ts_le_getLast hsorted2 hq hm

instance (l : List PPkt) : Decidable (tsSorted l) := by
  unfold tsSorted
  exact inferInstance

/-- Two-packet sorted sample stream for the C3 witness. -/
def lC3 : List PPkt :=
  [⟨[1, 2, 3, 4, 5, 6], 100, 5⟩, ⟨[1, 2, 3, 4, 5, 6], 110, 7⟩]

/-- C3 witness: the bucket-accumulation theorem applied to a concrete
two-packet stream with no windowing. -/
theorem countPackets_bucket_stats_witness :
    tsSorted lC3 ∧ (∀ q ∈ lC3, 0 < q.ts) ∧ lC3.length < U64 ∧
      (lC3.map (fun q => q.len)).sum < U64 ∧
      ∀ e ∈ countPackets 0 lC3,
        pktsOf 0 lC3 e.1 ≠ [] ∧
        e.2.count = (pktsOf 0 lC3 e.1).length ∧
        e.2.size = ((pktsOf 0 lC3 e.1).map (fun q => q.len)).sum ∧
        e.2.startTime ∈ (pktsOf 0 lC3 e.1).map (fun q => q.ts) ∧
        e.2.endTime ∈ (pktsOf 0 lC3 e.1).map (fun q => q.ts) ∧
        ∀ q ∈ pktsOf 0 lC3 e.1, e.2.startTime ≤ q.ts ∧ q.ts ≤ e.2.endTime :=
  ⟨by decide, by decide, by decide, by decide,
    countPackets_bucket_stats 0 lC3 (by decide) (by decide) (by decide) (by decide)⟩

/-- Out-of-order two-packet stream: same identity, timestamps 10 then
5. -/
def lC3x : List PPkt :=
  [⟨[1, 2, 3, 4, 5, 6], 10, 0⟩, ⟨[1, 2, 3, 4, 5, 6], 5, 0⟩]

/-- C3 counterexample: with no ordering assumption the claim is false —
for the stream with timestamps 10 then 5 the emitted bucket has
startTime 10 (not the minimum 5) and endTime 5 (not the maximum 10),
because the loop records first and last observed timestamps, not
min/max. -/
theorem countPackets_minmax_cex :
    countPackets 0 lC3x =
      [(⟨1, [1, 2, 3, 4, 5, 6], 0⟩, ⟨2, 0, 10, 5⟩)] ∧
      ¬ (∀ e ∈ countPackets 0 lC3x, ∀ q ∈ pktsOf 0 lC3x e.1,
          e.2.startTime ≤ q.ts ∧ q.ts ≤ e.2.endTime) := by
  constructor
  · decide
  · decide

/-- The eager-flush step: on a sorted prefix whose identity-c packets all
lie in windows up to the non-zero window of p1, processing the first
packet of a strictly newer window emits exactly p1's window bucket —
which contains only the prefix packets of that key, so the newer packet
is not folded into it — and nothing with p1's key was emitted before. -/
theorem countRun_flush_step (d : Nat) (la2 : List PPkt) (pstar p1 : PPkt)
    (hsort2 : tsSorted la2) (hp1la : p1 ∈ la2)
    (hcode2 : pstar.code = p1.code)
    (hw1 : win d p1 ≠ 0)
    (hwgt : win d p1 < win d pstar)
    (hbound : ∀ q ∈ la2, q.code = p1.code → win d q ≤ win d p1) :
    (∀ e ∈ (countRun d la2).emitted, e.1 ≠ byKey p1 d) ∧
      (countRun d (la2 ++ [pstar])).emitted =
        (countRun d la2).emitted ++
          [(byKey p1 d, accum (pktsOf d la2 (byKey p1 d)))] := by
  have hinv2 := cinv_countRun d la2 hsort2
  have hnotcl : ¬ closedK d la2 (byKey p1 d) := by
    rintro ⟨ht, r, hr, hrc, hrw⟩
    have h1 : win d r ≤ win d p1 := hbound r hr hrc
    have h2 : (byKey p1 d).time = win d p1 := rfl
    rw [h2] at hrw
    omega
  have hW1 : (byKey p1 d).time = win d p1 := rfl
  constructor
  · intro e he hx
    obtain ⟨h1, _, _⟩ := hinv2.hem e he
    rw [hx] at h1
    exact hnotcl h1
  · -- the step takes the flush branch
    have hKnone : mget (countRun d la2).stats (byKey pstar d) = none := by
      apply hinv2.hstats_neg
      left
      cases hps : pktsOf d la2 (byKey pstar d) with
      | nil => rfl
      | cons q qs =>
        exfalso
        have hqm : q ∈ pktsOf d la2 (byKey pstar d) := by
          rw [hps]
          simp
        obtain ⟨hql, hqk⟩ := mem_pktsOf.mp hqm
        have h1 : q.code = pstar.code := (win_code_eq hqk).1
        have h2 : win d q = win d pstar := (win_code_eq hqk).2
        have h3 : win d q ≤ win d p1 := hbound q hql (h1.trans hcode2)
        omega
    have hidk : byKey pstar 0 = idKeyOf p1.code := by
      rw [byKey_zero_eq_idKeyOf, hcode2]
    have hlast : lastWinOf d la2 p1.code = win d p1 := by
      have hp1m : p1 ∈ idPkts la2 p1.code := mem_idPkts.mpr ⟨hp1la, rfl⟩
      obtain ⟨m, hm⟩ : ∃ m, (idPkts la2 p1.code).getLast? = some m := by
        cases hgl : (idPkts la2 p1.code).getLast? with
        | none =>
          rw [List.getLast?_eq_none_iff] at hgl
          rw [hgl] at hp1m
          simp at hp1m
        | some m => exact ⟨m, rfl⟩
      have hm_mem : m ∈ idPkts la2 p1.code := by
        obtain ⟨hne3, heq⟩ :=
          List.mem_getLast?_eq_getLast (show m ∈ (idPkts la2 p1.code).getLast? from hm)
        rw [heq]
        exact List.getLast_mem hne3
      obtain ⟨hml, hmcode⟩ := mem_idPkts.mp hm_mem
      have h1 : win d p1 ≤ win d m :=
        win_mono d (ts_le_getLast (tsSorted_filter _ hsort2) hp1m hm)
      have h2 : win d m ≤ win d p1 := hbound m hml hmcode
      have h3 : win d m = lastWinOf d la2 p1.code := by
        unfold lastWinOf
        rw [hm]
        rfl
      omega
    have hprev : (mget (countRun d la2).keys (byKey pstar 0)).getD 0 = win d p1 := by
      rw [hidk, hinv2.hkeys p1.code, hlast]
    have hprev_ne : (mget (countRun d la2).keys (byKey pstar 0)).getD 0 ≠ 0 := by
      rw [hprev]
      exact hw1
    rw [countRun_append, countStep_miss_flush d _ pstar hKnone hprev_ne]
    have htmp : ({ byKey pstar 0 with
        time := (mget (countRun d la2).keys (byKey pstar 0)).getD 0 } : CKey) =
        byKey p1 d := by
      show (⟨pstar.code.getD 0 0, pstar.code,
        (mget (countRun d la2).keys (byKey pstar 0)).getD 0⟩ : CKey) =
        ⟨p1.code.getD 0 0, p1.code, win d p1⟩
      rw [hcode2, hprev]
    show (countRun d la2).emitted ++ _ = _
    rw [htmp]
    have hval : mget (countRun d la2).stats (byKey p1 d) =
        some (accum (pktsOf d la2 (byKey p1 d))) := by
      apply hinv2.hstats_pos
      · exact List.ne_nil_of_mem (mem_pktsOf.mpr ⟨hp1la, rfl⟩)
      · exact hnotcl
    rw [hval]
    rfl

theorem pairwise_middle {α : Type} {R : α → α → Prop} {A1 A2 : List α} {x : α}
    (h : (A1 ++ x :: A2).Pairwise R) :
    (∀ a ∈ A1, R a x) ∧ (∀ b ∈ A2, R x b) ∧ A2.Pairwise R ∧ A1.Pairwise R := by
  obtain ⟨h1, h2, h3⟩ := List.pairwise_append.mp h
  obtain ⟨h4, h5⟩ := List.pairwise_cons.mp h2
  exact ⟨fun a ha => h3 a ha x (List.mem_cons_self _ _), h4, h5, h1⟩

theorem nodup_middle_unique {α β : Type} (S1 S2 : List (α × β)) (x : α × β)
    (h : (((S1 ++ x :: S2).map Prod.fst).Nodup)) :
    ∀ e ∈ S1 ++ S2, e.1 ≠ x.1 := by
  rw [List.map_append, List.map_cons] at h
  obtain ⟨h1, h2, h3⟩ := List.pairwise_append.mp h
  intro e he hx
  rcases List.mem_append.mp he with he2 | he2
  · exact h3 e.1 (List.mem_map.mpr ⟨e, he2, rfl⟩) x.1 (List.mem_cons_self _ _) hx
  · exact (List.pairwise_cons.mp h2).1 e.1 (List.mem_map.mpr ⟨e, he2, rfl⟩) hx.symm

/-- C2 (amended): window rollover ordering over a time-sorted stream.
With a positive window width, an identity with a packet p1 in a non-zero
window and a later packet p2 in a different (hence newer) window, the
bucket for p1's window is emitted strictly before the bucket for p2's
window: the output of countPackets splits around a unique emission with
p1's key followed by a unique later emission with p2's key.  Moreover, at
the moment the first same-identity packet of a window newer than p1's is
processed, p1's bucket — containing only the packets before that moment,
so the newer packet is not folded into it — is emitted right then, and no
emission with p1's key precedes it. -/
theorem countPackets_rollover (d : Nat) (l la lb lc : List PPkt) (p1 p2 : PPkt)
    (_hd : 0 < d)
    (hsort : tsSorted l)
    (hsplit : l = la ++ p1 :: lb ++ p2 :: lc)
    (hcode : p2.code = p1.code)
    (hwne : win d p1 ≠ win d p2)
    (hw1 : win d p1 ≠ 0) :
    (∃ A e1 B e2 C, countPackets d l = A ++ e1 :: B ++ e2 :: C ∧
      e1.1 = byKey p1 d ∧ e2.1 = byKey p2 d ∧
      ∀ e ∈ A ++ B ++ C, e.1 ≠ byKey p1 d ∧ e.1 ≠ byKey p2 d) ∧
    (∀ la2 pstar lb2, l = la2 ++ pstar :: lb2 → pstar.code = p1.code →
      win d p1 < win d pstar →
      (∀ q ∈ la2, q.code = p1.code → win d q ≤ win d p1) →
      p1 ∈ la2 →
      (∀ e ∈ (countRun d la2).emitted, e.1 ≠ byKey p1 d) ∧
      (countRun d (la2 ++ [pstar])).emitted =
        (countRun d la2).emitted ++
          [(byKey p1 d, accum (pktsOf d la2 (byKey p1 d)))]) := by
  have hp1 : p1 ∈ l := by
    rw [hsplit]
    simp
  have hp2 : p2 ∈ l := by
    rw [hsplit]
    simp
  have h12ts : p1.ts ≤ p2.ts := by
    have hs2 : tsSorted (la ++ p1 :: lb ++ p2 :: lc) := hsplit ▸ hsort
    obtain ⟨h1, h2, h3⟩ := List.pairwise_append.mp hs2
    exact h3 p1 (by simp) p2 (List.mem_cons_self _ _)
  have hww : win d p1 < win d p2 :=
    Nat.lt_of_le_of_ne (win_mono d h12ts) hwne
  have hinv := cinv_countRun d l hsort
  have hcl1 : closedK d l (byKey p1 d) := by
    refine ⟨hw1, p2, hp2, hcode, ?_⟩
    show win d p1 < win d p2
    exact hww
  have hne1 : pktsOf d l (byKey p1 d) ≠ [] :=
    List.ne_nil_of_mem (mem_pktsOf.mpr ⟨hp1, rfl⟩)
  have hne2 : pktsOf d l (byKey p2 d) ≠ [] :=
    List.ne_nil_of_mem (mem_pktsOf.mpr ⟨hp2, rfl⟩)
  have hE1 : (byKey p1 d, accum (pktsOf d l (byKey p1 d))) ∈ (countRun d l).emitted :=
    hinv.hemAll _ hcl1 hne1
  have hkne : byKey p1 d ≠ byKey p2 d := by
    intro hx
    have h1 : win d p1 = win d p2 := congrArg CKey.time hx
    exact hwne h1
  have hkcode : (byKey p1 d).code = (byKey p2 d).code := by
    show p1.code = p2.code
    exact hcode.symm
  have hstats_no1 : ∀ e ∈ (countRun d l).stats, e.1 ≠ byKey p1 d := by
    intro e he hx
    have h4 : mget (countRun d l).stats e.1 = some e.2 :=
      mget_eq_some_of_mem _ hinv.hnodup e he
    rw [hx, hinv.hstats_neg _ (Or.inr hcl1)] at h4
    exact Option.noConfusion h4
  constructor
  · obtain ⟨A1, A2, hEsplit⟩ := List.append_of_mem hE1
    have hord := hinv.hemOrd
    rw [hEsplit] at hord
    obtain ⟨hordA1, hordE1A2, hordA2, hordA1p⟩ := pairwise_middle hord
    have hA1no1 : ∀ e ∈ A1, e.1 ≠ byKey p1 d := by
      intro e he3 hx
      have h6 := hordA1 e he3 (by rw [hx])
      rw [hx] at h6
      exact Nat.lt_irrefl _ h6
    have hA1no2 : ∀ e ∈ A1, e.1 ≠ byKey p2 d := by
      intro e he3 hx
      have h6 := hordA1 e he3 (by rw [hx]; exact hkcode.symm)
      rw [hx] at h6
      have h7 : win d p2 < win d p1 := h6
      omega
    have hA2no1 : ∀ e ∈ A2, e.1 ≠ byKey p1 d := by
      intro e he3 hx
      have h6 := hordE1A2 e he3 (by rw [hx])
      rw [hx] at h6
      exact Nat.lt_irrefl _ h6
    by_cases hc2 : closedK d l (byKey p2 d)
    · -- p2's bucket is also eagerly emitted, after p1's
      have hE2 : (byKey p2 d, accum (pktsOf d l (byKey p2 d))) ∈
          (countRun d l).emitted := hinv.hemAll _ hc2 hne2
      have hstats_no2 : ∀ e ∈ (countRun d l).stats, e.1 ≠ byKey p2 d := by
        intro e he hx
        have h4 : mget (countRun d l).stats e.1 = some e.2 :=
          mget_eq_some_of_mem _ hinv.hnodup e he
        rw [hx, hinv.hstats_neg _ (Or.inr hc2)] at h4
        exact Option.noConfusion h4
      have hE2A2 : (byKey p2 d, accum (pktsOf d l (byKey p2 d))) ∈ A2 := by
        rw [hEsplit] at hE2
        rcases List.mem_append.mp hE2 with hx | hx
        · exact absurd rfl (hA1no2 _ hx)
        · rcases List.mem_cons.mp hx with hx2 | hx2
          · exact absurd (congrArg Prod.fst hx2.symm) hkne
          · exact hx2
      obtain ⟨B1, B2, hA2split⟩ := List.append_of_mem hE2A2
      obtain ⟨hordB1, hordE2B2, hordB2, hordB1p⟩ := pairwise_middle (hA2split ▸ hordA2)
      have hB1no2 : ∀ e ∈ B1, e.1 ≠ byKey p2 d := by
        intro e he3 hx
        have h6 := hordB1 e he3 (by rw [hx])
        rw [hx] at h6
        exact Nat.lt_irrefl _ h6
      have hB2no2 : ∀ e ∈ B2, e.1 ≠ byKey p2 d := by
        intro e he3 hx
        have h6 := hordE2B2 e he3 (by rw [hx])
        rw [hx] at h6
        exact Nat.lt_irrefl _ h6
      refine ⟨A1, (byKey p1 d, accum (pktsOf d l (byKey p1 d))), B1,
        (byKey p2 d, accum (pktsOf d l (byKey p2 d))),
        B2 ++ (countRun d l).stats, ?_, rfl, rfl, ?_⟩
      · rw [countPackets, hEsplit, hA2split]
        simp [List.append_assoc]
      · intro e he
        rcases List.mem_append.mp he with he2 | he2
        · rcases List.mem_append.mp he2 with he3 | he3
          · exact ⟨hA1no1 e he3, hA1no2 e he3⟩
          · refine ⟨hA2no1 e (by rw [hA2split]; exact List.mem_append.mpr (Or.inl he3)), ?_⟩
            exact hB1no2 e he3
        · rcases List.mem_append.mp he2 with he3 | he3
          · refine ⟨?_, hB2no2 e he3⟩
            apply hA2no1 e
            rw [hA2split]
            exact List.mem_append.mpr (Or.inr (List.mem_cons_of_mem _ he3))
          · exact ⟨hstats_no1 e he3, hstats_no2 e he3⟩
    · -- p2's bucket is still open and comes out in the final flush
      have hem_no2 : ∀ e ∈ (countRun d l).emitted, e.1 ≠ byKey p2 d := by
        intro e he hx
        obtain ⟨h1, _, _⟩ := hinv.hem e he
        rw [hx] at h1
        exact hc2 h1
      have hv2 : mget (countRun d l).stats (byKey p2 d) =
          some (accum (pktsOf d l (byKey p2 d))) :=
        hinv.hstats_pos _ hne2 hc2
      have hE2s : (byKey p2 d, accum (pktsOf d l (byKey p2 d))) ∈
          (countRun d l).stats := mem_of_mget_some _ _ _ hv2
      obtain ⟨S1, S2, hSsplit⟩ := List.append_of_mem hE2s
      have hnd := hinv.hnodup
      rw [hSsplit] at hnd
      have hSno2 : ∀ e ∈ S1 ++ S2, e.1 ≠ byKey p2 d :=
        nodup_middle_unique S1 S2 _ hnd
      refine ⟨A1, (byKey p1 d, accum (pktsOf d l (byKey p1 d))), A2 ++ S1,
        (byKey p2 d, accum (pktsOf d l (byKey p2 d))), S2, ?_, rfl, rfl, ?_⟩
      · rw [countPackets, hEsplit, hSsplit]
        simp [List.append_assoc]
      · intro e he
        rcases List.mem_append.mp he with he2 | he2
        · rcases List.mem_append.mp he2 with he3 | he3
          · exact ⟨hA1no1 e he3, hA1no2 e he3⟩
          · rcases List.mem_append.mp he3 with he4 | he4
            · refine ⟨hA2no1 e he4, ?_⟩
              apply hem_no2 e
              rw [hEsplit]
              exact List.mem_append.mpr (Or.inr (List.mem_cons_of_mem _ he4))
            · refine ⟨?_, hSno2 e (List.mem_append.mpr (Or.inl he4))⟩
              apply hstats_no1 e
              rw [hSsplit]
              exact List.mem_append.mpr (Or.inl he4)
        · refine ⟨?_, hSno2 e (List.mem_append.mpr (Or.inr he2))⟩
          apply hstats_no1 e
          rw [hSsplit]
          exact List.mem_append.mpr (Or.inr (List.mem_cons_of_mem _ he2))
  · intro la2 pstar lb2 hsplit2 hcode2 hwgt hbound hp1la
    have hsort2 : tsSorted la2 := by
      rw [hsplit2] at hsort
      exact (List.pairwise_append.mp hsort).1
    exact countRun_flush_step d la2 pstar p1 hsort2 hp1la hcode2 hw1 hwgt hbound

/-- First packet of the C2 witness stream: window 100. -/
def cp2a : PPkt := ⟨[1, 2, 3, 4, 5, 6], 150, 5⟩

/-- Second packet of the C2 witness stream: window 200. -/
def cp2b : PPkt := ⟨[1, 2, 3, 4, 5, 6], 250, 7⟩

/-- Sorted two-window stream for the C2 witness. -/
def lC2 : List PPkt := [cp2a, cp2b]

/-- C2 witness: the rollover-ordering theorem applied to a concrete
sorted stream with window width 100 and packets in windows 100 and
200. -/
theorem countPackets_rollover_witness :
    tsSorted lC2 ∧ win 100 cp2a ≠ win 100 cp2b ∧ win 100 cp2a ≠ 0 ∧
      (∃ A e1 B e2 C, countPackets 100 lC2 = A ++ e1 :: B ++ e2 :: C ∧
        e1.1 = byKey cp2a 100 ∧ e2.1 = byKey cp2b 100 ∧
        ∀ e ∈ A ++ B ++ C, e.1 ≠ byKey cp2a 100 ∧ e.1 ≠ byKey cp2b 100) :=
  ⟨by decide, by decide, by decide,
    (countPackets_rollover 100 lC2 [] [] [] cp2a cp2b (by decide) (by decide) rfl
      (by decide) (by decide) (by decide)).1⟩

/-- Out-of-order stream: the window-200 packet precedes the window-100
packet. -/
def lC2x : List PPkt :=
  [⟨[1, 2, 3, 4, 5, 6], 250, 0⟩, ⟨[1, 2, 3, 4, 5, 6], 150, 0⟩]

/-- Sorted stream whose first window start is the zero time. -/
def lC2z : List PPkt :=
  [⟨[1, 2, 3, 4, 5, 6], 50, 0⟩, ⟨[1, 2, 3, 4, 5, 6], 150, 0⟩]

/-- C2 counterexample: the claim fails without its amendments.  First,
with no stream-order assumption: for timestamps T1 = 150 < T2 = 250 in
distinct windows but arriving in the order 250, 150, the bucket
containing T2 (window 200) is emitted before the bucket for T1's window
(window 100).  Second, when T1's window start is the zero time: for the
in-order stream 50, 150 with width 100, nothing at all is emitted while
packets are processed (the window-0 bucket is not flushed when the
window-100 packet arrives, both buckets leaving only at stream end), so
the older bucket is not emitted at the moment the first packet of the
newer window is processed. -/
theorem countPackets_rollover_cex :
    countPackets 100 lC2x =
      [(⟨1, [1, 2, 3, 4, 5, 6], 200⟩, ⟨1, 0, 250, 250⟩),
        (⟨1, [1, 2, 3, 4, 5, 6], 100⟩, ⟨1, 0, 150, 150⟩)] ∧
      (countRun 100 lC2z).emitted = [] := by
  constructor
  · decide
  · decide

end Ppcat
